import Mathlib

/-!
Verification of the lexer in `src/lex.rs` of the `rusty` repository.

The lexer is embedded shallowly: the source buffer is a `List Char`
(Rust `&str` is a sequence of `char`s), and byte offsets are computed
with `Char.utf8Size`, exactly as Rust's `char::len_utf8`.  The stub
duplicate in `src/lib.rs` and the CLI in `src/main.rs` are out of scope;
`src/lex.rs` is the authority.
-/

set_option maxHeartbeats 1000000

deriving instance DecidableEq for Except

namespace Rusty

/-- Total UTF-8 byte length of a character list; models Rust `str::len`
on the corresponding string slice. -/
def utf8Len (l : List Char) : Nat := (l.map Char.utf8Size).sum

/-- Models Rust `char::is_whitespace` (the Unicode `White_Space` property),
used by the whitespace-skipping arm and `str::trim_start` in `Lexer::next`. -/
def rustIsWhitespace (c : Char) : Bool :=
  (9 ≤ c.toNat && c.toNat ≤ 13) || c.toNat == 32 || c.toNat == 0x85 ||
  c.toNat == 0xA0 || c.toNat == 0x1680 ||
  (0x2000 ≤ c.toNat && c.toNat ≤ 0x200A) || c.toNat == 0x2028 ||
  c.toNat == 0x2029 || c.toNat == 0x202F || c.toNat == 0x205F ||
  c.toNat == 0x3000

/-- Models the Rust pattern `'0'..='9'` (src/lex.rs:208). -/
def isDigitChar (c : Char) : Bool := 48 ≤ c.toNat && c.toNat ≤ 57

/-- Models the Rust pattern `'a'..='z' | 'A'..='Z' | '_'` for the first
character of an identifier (src/lex.rs:209). -/
def isIdentStart (c : Char) : Bool :=
  (97 ≤ c.toNat && c.toNat ≤ 122) || (65 ≤ c.toNat && c.toNat ≤ 90) ||
  c.toNat == 95

/-- Models the continuation pattern `'a'..='z' | 'A'..='Z' | '0'..='9' | '_'`
of the identifier arm (src/lex.rs:258). -/
def isIdentChar (c : Char) : Bool := isIdentStart c || isDigitChar c

/-- Models the pattern `'.' | '0'..='9'` of the number arm (src/lex.rs:293). -/
def isNumChar (c : Char) : Bool := c == '.' || isDigitChar c

/-- Byte-indexed take: `takeBytes n l` is the Rust byte slice `&l[..n]`,
truncating at the last character boundary not exceeding `n`.  Inside the
lexer it is only applied at character boundaries. -/
def takeBytes : Nat → List Char → List Char
  | _, [] => []
  | n, c :: cs => if c.utf8Size ≤ n then c :: takeBytes (n - c.utf8Size) cs else []

/-- Byte-indexed drop: `dropBytes n l` is the Rust byte slice `&l[n..]`.
Inside the lexer it is only applied at character boundaries. -/
def dropBytes : Nat → List Char → List Char
  | _, [] => []
  | n, c :: cs => if n = 0 then c :: cs else dropBytes (n - c.utf8Size) cs

/-- The byte slice `l[s..e]`, at character boundaries. -/
def sliceBytes (l : List Char) (s e : Nat) : List Char :=
  takeBytes (e - s) (dropBytes s l)

/-- Checked inclusive-take of `n` bytes: `some` of the prefix when `n` is a
character boundary within bounds, `none` when Rust byte slicing would panic
(index out of range or not on a character boundary). -/
def takeBytesQ : Nat → List Char → Option (List Char)
  | 0, _ => some []
  | _ + 1, [] => none
  | n, c :: cs =>
    if c.utf8Size ≤ n then (takeBytesQ (n - c.utf8Size) cs).map (c :: ·) else none

/-- The `TokenKind` enum of src/lex.rs:48-87.  The `Number` payload is
modelled as an exact rational instead of the Rust `f64`; every literal the
lexer accepts has a small decimal value, represented exactly. -/
inductive TokenKind where
  | LeftParen
  | RightParen
  | LeftBrace
  | RightBrace
  | Comma
  | Dot
  | Minus
  | Plus
  | Semicolon
  | Star
  | Bang
  | BangEqual
  | EqualEqual
  | LessEqual
  | GreaterEqual
  | Less
  | Greater
  | Slash
  | Equal
  | String
  | Ident
  | Number (val : ℚ)
  | And
  | Class
  | Else
  | False
  | For
  | Fun
  | If
  | Nil
  | Or
  | Print
  | Return
  | Super
  | This
  | True
  | Var
  | While
deriving DecidableEq, Repr

/-- The `Token` struct of src/lex.rs:41-45: a borrowed origin substring plus
a kind.  Equality is field-wise, as the derived `PartialEq` in Rust. -/
structure Token where
  origin : List Char
  kind : TokenKind
deriving DecidableEq, Repr

/-- The lexical errors of src/lex.rs: `SingleTokenError` (src, offending
char, span), `StringTerminationError` (src, span), and the ad-hoc malformed
numeric literal diagnostic of src/lex.rs:316-325.  Spans are `(start, end)`
byte offsets, as `SourceSpan::from(start..end)`. -/
inductive LexError where
  | singleToken (src : List Char) (token : Char) (errSpan : Nat × Nat)
  | stringTermination (src : List Char) (errSpan : Nat × Nat)
  | malformedNumeric (src : List Char) (errSpan : Nat × Nat)
deriving DecidableEq, Repr

/-- The reserved-word table of src/lex.rs:266-284. -/
def keywordKind (literal : List Char) : TokenKind :=
  if literal = "and".toList then .And
  else if literal = "class".toList then .Class
  else if literal = "else".toList then .Else
  else if literal = "false".toList then .False
  else if literal = "for".toList then .For
  else if literal = "fun".toList then .Fun
  else if literal = "if".toList then .If
  else if literal = "nil".toList then .Nil
  else if literal = "or".toList then .Or
  else if literal = "print".toList then .Print
  else if literal = "return".toList then .Return
  else if literal = "super".toList then .Super
  else if literal = "this".toList then .This
  else if literal = "true".toList then .True
  else if literal = "var".toList then .Var
  else if literal = "while".toList then .While
  else .Ident

/-- Value of a list of decimal digit characters, most significant first. -/
def digitsVal (l : List Char) : Nat :=
  l.foldl (fun a d => 10 * a + (d.toNat - 48)) 0

/-- Models `str::parse::<f64>` (src/lex.rs:314) on the digit/dot strings the
number arm can produce: grammar `digits+ | digits+ '.' digits* | '.' digits+`,
anything else fails.  The value is the exact rational of the decimal literal
(the Rust code stores the nearest `f64`; the claims under verification only
concern which literals parse and the truncation policy). -/
def parseNumber (l : List Char) : Option ℚ :=
  let ip := l.takeWhile isDigitChar
  match l.dropWhile isDigitChar with
  | [] => if ip.isEmpty then none else some ((digitsVal ip : ℚ))
  | '.' :: frac =>
    if frac.all isDigitChar && (!ip.isEmpty || !frac.isEmpty) then
      some (mkRat (digitsVal ip * 10 ^ frac.length + digitsVal frac) (10 ^ frac.length))
    else none
  | _ => none

/-- The `Started::String` arm (src/lex.rs:221-240).  `c` is the opening
quote, `cs` the rest after it, `byte1` the offset just past the quote.
`rest.find('"')` together with the byte slices `&c_onwards[..end + 1 + 1]`
and `&self.rest[end + 1..]` is rendered with `takeWhile`/`dropWhile` at the
quote, which meet the same character boundaries. -/
def lexString (whole : List Char) (c : Char) (cs : List Char) (byte1 : Nat) :
    Except LexError Token × List Char × Nat :=
  if '"' ∈ cs then
    let content := cs.takeWhile (fun d => d != '"')
    ( .ok ⟨(c :: content) ++ ['"'], .String⟩,
      (cs.dropWhile (fun d => d != '"')).drop 1,
      byte1 + utf8Len content + 1)
  else
    ( .error (.stringTermination whole (byte1 - c.utf8Size, utf8Len whole)),
      [], byte1 + utf8Len cs)

/-- The `Started::Ident` arm (src/lex.rs:256-289).  The byte slice at
`first_non_ident` is rendered with `takeWhile`/`dropWhile`, which meet the
same character boundary. -/
def lexIdent (c : Char) (cs : List Char) (byte1 : Nat) :
    Except LexError Token × List Char × Nat :=
  let literal := (c :: cs).takeWhile isIdentChar
  ( .ok ⟨literal, keywordKind literal⟩,
    (c :: cs).dropWhile isIdentChar,
    byte1 + (utf8Len literal - c.utf8Size))

/-- The `splitn(3, '.')` filtering of src/lex.rs:297-308 applied to the
maximal digit/dot run: splitting at the first two dots, with a third part
present (two or more dots) keep `one.two`; with exactly one dot and an
empty second part (trailing dot) keep `one`; otherwise keep the run. -/
def numberLiteral (run : List Char) : List Char :=
  let one := run.takeWhile (fun d => d != '.')
  match run.dropWhile (fun d => d != '.') with
  | [] => run
  | _ :: t1 =>
    let two := t1.takeWhile (fun d => d != '.')
    match t1.dropWhile (fun d => d != '.') with
    | [] => if two.isEmpty then one else run
    | _ :: _ => one ++ '.' :: two

/-- The `Started::Number` arm (src/lex.rs:291-331): take the maximal
digit/dot run, apply the `numberLiteral` filtering, advance past the
retained literal, then parse it. -/
def lexNumber (whole : List Char) (c : Char) (cs : List Char) (byte1 : Nat) :
    Except LexError Token × List Char × Nat :=
  let literal := numberLiteral ((c :: cs).takeWhile isNumChar)
  let rest' := dropBytes (utf8Len literal) (c :: cs)
  let byte' := byte1 + (utf8Len literal - c.utf8Size)
  match parseNumber literal with
  | some n => (.ok ⟨literal, .Number n⟩, rest', byte')
  | none => (.error (.malformedNumeric whole (byte' - utf8Len literal, byte')), rest', byte')

/-- The `Started::IfEqualElse` arm (src/lex.rs:333-351): trim whitespace
after the operator; if an `=` follows, fuse operator, trimmed whitespace and
`=` into one token (the span `&c_onwards[..c.len_utf8() + trimmed + 1]`),
else emit the one-character kind with the whitespace already consumed. -/
def lexOperator (yes no : TokenKind) (c : Char) (cs : List Char) (byte1 : Nat) :
    Except LexError Token × List Char × Nat :=
  let rest1 := cs.dropWhile rustIsWhitespace
  let trimmed := utf8Len (c :: cs) - utf8Len rest1 - 1
  if rest1.head? = some '=' then
    (.ok ⟨c :: (cs.takeWhile rustIsWhitespace ++ ['=']), yes⟩, rest1.tail, byte1 + trimmed + 1)
  else (.ok ⟨[c], no⟩, rest1, byte1 + trimmed)

/-- One dispatch step of `Lexer::next` (src/lex.rs:190-352) on the first
unconsumed character `c` at byte offset `byte`, after whitespace and
comments have been skipped by `skipTrivia`; hence the `continue` arms
(whitespace, `//` comment) do not appear here, and the `/` arm is the
`Slash`-token case. -/
def dispatch (whole : List Char) (c : Char) (cs : List Char) (byte : Nat) :
    Except LexError Token × List Char × Nat :=
  let byte1 := byte + c.utf8Size
  if c = '(' then (.ok ⟨[c], .LeftParen⟩, cs, byte1)
  else if c = ')' then (.ok ⟨[c], .RightParen⟩, cs, byte1)
  else if c = '{' then (.ok ⟨[c], .LeftBrace⟩, cs, byte1)
  else if c = '}' then (.ok ⟨[c], .RightBrace⟩, cs, byte1)
  else if c = ',' then (.ok ⟨[c], .Comma⟩, cs, byte1)
  else if c = '.' then (.ok ⟨[c], .Dot⟩, cs, byte1)
  else if c = '-' then (.ok ⟨[c], .Minus⟩, cs, byte1)
  else if c = '+' then (.ok ⟨[c], .Plus⟩, cs, byte1)
  else if c = ';' then (.ok ⟨[c], .Semicolon⟩, cs, byte1)
  else if c = '*' then (.ok ⟨[c], .Star⟩, cs, byte1)
  else if c = '/' then (.ok ⟨[c], .Slash⟩, cs, byte1)
  else if c = '<' then lexOperator .LessEqual .Less c cs byte1
  else if c = '>' then lexOperator .GreaterEqual .Greater c cs byte1
  else if c = '!' then lexOperator .BangEqual .Bang c cs byte1
  else if c = '=' then lexOperator .EqualEqual .Equal c cs byte1
  else if c = '"' then lexString whole c cs byte1
  else if isDigitChar c then lexNumber whole c cs byte1
  else if isIdentStart c then lexIdent c cs byte1
  else (.error (.singleToken whole c (byte1 - c.utf8Size, byte1)), cs, byte1)

/-- The `continue` paths of the loop in `Lexer::next` (src/lex.rs:167-254):
whitespace characters are skipped one at a time; `//` starts a comment that
discards characters up to, and excluding, the next newline (the newline is
then itself skipped as whitespace).  The Rust code consumes the comment body
with one `find('\n')`; here it is consumed character by character via the
`Bool` mode flag (`true` = inside a comment), with the same cursor result. -/
def skipTrivia : Bool → List Char → Nat → List Char × Nat
  | _, [], b => ([], b)
  | true, c :: cs, b =>
    if c = '\n' then skipTrivia false cs (b + 1)
    else skipTrivia true cs (b + c.utf8Size)
  | false, c :: cs, b =>
    if rustIsWhitespace c then skipTrivia false cs (b + c.utf8Size)
    else
      match c, cs with
      | '/', '/' :: cs2 => skipTrivia true cs2 (b + 2)
      | _, _ => (c :: cs, b)

/-- One full call of `Lexer::next` (src/lex.rs:166-354) in state
`(whole, rest, byte)`: skip trivia, then either report exhaustion (`None`)
or dispatch on the next character.  Returns the produced item together with
the new `rest` and `byte`. -/
def lexNext (whole rest : List Char) (byte : Nat) :
    Option (Except LexError Token) × List Char × Nat :=
  match skipTrivia false rest byte with
  | ([], b) => (none, [], b)
  | (c :: cs, b) =>
    let r := dispatch whole c cs b
    (some r.1, r.2)

/-- Pulling the iterator to exhaustion, with explicit fuel (each produced
item consumes at least one character, so any fuel above the length of
`rest` is enough; `lexAll` supplies it). -/
def lexItemsF (whole : List Char) : Nat → List Char → Nat → List (Except LexError Token)
  | 0, _, _ => []
  | fuel + 1, rest, byte =>
    match lexNext whole rest byte with
    | (none, _, _) => []
    | (some it, rest', byte') => it :: lexItemsF whole fuel rest' byte'

/-- The full token/error sequence of `Lexer::new(input)` pulled to
exhaustion. -/
def lexAll (input : List Char) : List (Except LexError Token) :=
  lexItemsF input (input.length + 1) input 0

/-- The `Lexer` struct of src/lex.rs:147-151. -/
structure Lexer where
  whole : List Char
  rest : List Char
  byte : Nat
deriving DecidableEq, Repr

/-- `Lexer::new` (src/lex.rs:154-160). -/
def Lexer.new (input : List Char) : Lexer := ⟨input, input, 0⟩

/-- `Lexer::next` as a state transformer on the struct. -/
def Lexer.next (lx : Lexer) : Option (Except LexError Token) × Lexer :=
  match lexNext lx.whole lx.rest lx.byte with
  | (r, rest', byte') => (r, ⟨lx.whole, rest', byte'⟩)

/-- The cursor invariant: `rest` is the suffix of `whole` starting at byte
offset `byte`. -/
def Lexer.WF (lx : Lexer) : Prop :=
  ∃ pre, lx.whole = pre ++ lx.rest ∧ lx.byte = utf8Len pre

/-- The region of the buffer an item accounts for: a token's origin; the one
offending character of an `UnexpectedCharacter`; the recorded span (opening
quote to end of input) of an `UnterminatedString`; the recorded span of a
malformed numeric literal. -/
def consumedOf (whole : List Char) : Except LexError Token → List Char
  | .ok t => t.origin
  | .error (.singleToken _ tok _) => [tok]
  | .error (.stringTermination _ sp) => sliceBytes whole sp.1 sp.2
  | .error (.malformedNumeric _ sp) => sliceBytes whole sp.1 sp.2

/-- Recognizer for the silently dropped gaps: sequences of whitespace and
`//` comments (mode `true` = inside a comment, which any character other
than a newline extends). -/
def isGapRun : Bool → List Char → Bool
  | _, [] => true
  | true, c :: cs => if c = '\n' then isGapRun false cs else isGapRun true cs
  | false, c :: cs =>
    if rustIsWhitespace c then isGapRun false cs
    else
      match c, cs with
      | '/', '/' :: cs2 => isGapRun true cs2
      | _, _ => false

/-- Alternating concatenation `g0 ++ s0 ++ g1 ++ s1 ++ ... ++ gn` of gaps
around consumed spans. -/
def interleave : List (List Char) → List (List Char) → List Char
  | [], _ => []
  | g :: _, [] => g
  | g :: gs, s :: ss => g ++ (s ++ interleave gs ss)

/-- Byte ranges `(start, end)` of the consumed spans in an interleaving that
begins at byte offset `o`. -/
def spanRanges : Nat → List (List Char) → List (List Char) → List (Nat × Nat)
  | _, _, [] => []
  | o, [], s :: ss => (o, o + utf8Len s) :: spanRanges (o + utf8Len s) [] ss
  | o, g :: gs, s :: ss =>
    (o + utf8Len g, o + utf8Len g + utf8Len s) ::
      spanRanges (o + utf8Len g + utf8Len s) gs ss

/-- Models `Token::unescape` (src/lex.rs:142-144): `str::trim_matches('"')`
removes all leading and trailing double quotes. -/
def unescape (s : List Char) : List Char :=
  ((s.dropWhile (fun d => d == '"')).reverse.dropWhile (fun d => d == '"')).reverse

/-- Decimal rendering of the rational model of a `Number` payload, following
the rendering contract (`{n}.0` for exact integers, natural decimal form
otherwise).  No claim under verification exercises this case. -/
def numberRepr (q : ℚ) : String :=
  if q.den = 1 then toString q.num ++ ".0"
  else
    match (List.range 40).find? (fun k => q.den ∣ 10 ^ k) with
    | some k =>
      let m := q.num.natAbs * (10 ^ k / q.den)
      let s := toString m
      let s := if s.length ≤ k then
          String.mk (List.replicate (k + 1 - s.length) '0') ++ s
        else s
      (if q.num < 0 then "-" else "") ++ s.dropRight k ++ "." ++ s.takeRight k
    | none => toString q

/-- The `Display` impl for `Token` (src/lex.rs:89-139), including the
`IDENTFIER` misspelling of the source. -/
def Token.display (t : Token) : String :=
  match t.kind with
  | .LeftParen => "LEFT_PAREN"
  | .RightParen => "RIGHT_PAREN"
  | .LeftBrace => "LEFT_BRACE"
  | .RightBrace => "RIGHT_BRACE"
  | .Comma => "COMMA"
  | .Dot => "DOT"
  | .Minus => "MINUS"
  | .Plus => "PLUS"
  | .Semicolon => "SEMICOLON"
  | .Star => "STAR"
  | .BangEqual => "BANG_EQUAL"
  | .EqualEqual => "EQUAL_EQUAL"
  | .LessEqual => "LESS_EQUAL"
  | .GreaterEqual => "GREATER_EQUAL"
  | .Less => "LESS"
  | .Greater => "GREATER"
  | .Slash => "SLASH"
  | .Bang => "BANG"
  | .Equal => "EQUAL"
  | .String => "STRING " ++ String.mk t.origin ++ " " ++ String.mk (unescape t.origin)
  | .Ident => "IDENTFIER " ++ String.mk t.origin
  | .Number n => "NUMBER " ++ numberRepr n
  | .And => "AND"
  | .Class => "CLASS"
  | .Else => "ELSE"
  | .False => "FALSE"
  | .For => "FOR"
  | .Fun => "FUN"
  | .If => "IF"
  | .Nil => "NIL"
  | .Or => "OR"
  | .Print => "PRINT"
  | .Return => "RETURN"
  | .Super => "SUPER"
  | .This => "THIS"
  | .True => "TRUE"
  | .Var => "VAR"
  | .While => "WHILE"

/-- Models `str::lines().count()` on a character list: `lines` splits at
newlines and yields no trailing empty line, so the count is the number of
newlines plus one unless the text is empty or ends with a newline. -/
def linesCount (l : List Char) : Nat :=
  match l with
  | [] => 0
  | _ => l.count '\n' + (if l.getLast? = some '\n' then 0 else 1)

/-- Models the `line()` methods of src/lex.rs:17-22 and 34-39:
`&self.src[..=offset]` followed by `lines().count()`.  The inclusive byte
slice takes `offset + 1` bytes; `none` models the Rust panic when
`offset + 1` is not a character boundary of `src` (or is out of range). -/
def lineOf (src : List Char) (offset : Nat) : Option Nat :=
  (takeBytesQ (offset + 1) src).map linesCount

/-- Line number of an error, through the `line()` method of its Rust error
type.  The ad-hoc malformed-numeric diagnostic has no such method. -/
def LexError.lineNum : LexError → Option Nat
  | .singleToken src _ sp => lineOf src sp.1
  | .stringTermination src sp => lineOf src sp.1
  | .malformedNumeric _ _ => none

/-- Decomposition produced by one dispatch step: the remaining input splits
into the consumed region of the produced item, a purely-whitespace tail gap
(the whitespace an operator lookahead trims even when no `=` follows), and
the new remainder; the byte cursor advances by exactly the bytes of both. -/
def StepOk (whole : List Char) (c : Char) (cs : List Char) (byte : Nat)
    (R : Except LexError Token × List Char × Nat) : Prop :=
  ∃ cons g2, c :: cs = cons ++ (g2 ++ R.2.1) ∧ cons ≠ [] ∧
    (∀ d ∈ g2, rustIsWhitespace d = true) ∧
    R.2.2 = byte + utf8Len cons + utf8Len g2 ∧
    consumedOf whole R.1 = cons

end Rusty

namespace Rusty

/-! Basic lemmas about byte lengths, byte slicing and character classes. -/

theorem utf8Len_nil : utf8Len [] = 0 := rfl

theorem utf8Len_cons (c : Char) (l : List Char) :
    utf8Len (c :: l) = c.utf8Size + utf8Len l := by
  simp [utf8Len]

theorem utf8Len_append (a b : List Char) :
    utf8Len (a ++ b) = utf8Len a + utf8Len b := by
  simp [utf8Len]

theorem utf8Len_pos {l : List Char} (h : l ≠ []) : 0 < utf8Len l := by
  cases l with
  | nil => exact absurd rfl h
  | cons c cs =>
    have := c.utf8Size_pos
    rw [utf8Len_cons]
    omega

theorem takeBytes_exact (a r : List Char) : takeBytes (utf8Len a) (a ++ r) = a := by
  induction a with
  | nil =>
    cases r with
    | nil => rfl
    | cons c cs =>
      have := c.utf8Size_pos
      simp only [utf8Len_nil, List.nil_append, takeBytes]
      rw [if_neg (by omega)]
  | cons c a ih =>
    have := c.utf8Size_pos
    simp only [utf8Len_cons, List.cons_append, takeBytes]
    rw [if_pos (by omega)]
    have : c.utf8Size + utf8Len a - c.utf8Size = utf8Len a := by omega
    rw [this]
    exact congrArg (c :: ·) ih

theorem takeBytes_self (l : List Char) : takeBytes (utf8Len l) l = l := by
  simpa using takeBytes_exact l []

theorem dropBytes_exact (a r : List Char) : dropBytes (utf8Len a) (a ++ r) = r := by
  induction a with
  | nil =>
    cases r with
    | nil => rfl
    | cons c cs => simp [utf8Len_nil, dropBytes]
  | cons c a ih =>
    have := c.utf8Size_pos
    simp only [utf8Len_cons, List.cons_append, dropBytes]
    rw [if_neg (by omega)]
    have : c.utf8Size + utf8Len a - c.utf8Size = utf8Len a := by omega
    rw [this]
    exact ih

theorem utf8Size_eq_one {c : Char} (h : c.toNat ≤ 127) : c.utf8Size = 1 := by
  have hv : c.val ≤ UInt32.ofNatCore 0x7F (by decide) := by
    rw [UInt32.le_def, BitVec.le_def]; exact h
  simp only [Char.utf8Size]
  rw [if_pos hv]

theorem isDigitChar_bounds {c : Char} (h : isDigitChar c = true) :
    48 ≤ c.toNat ∧ c.toNat ≤ 57 := by
  simpa [isDigitChar, Bool.and_eq_true, decide_eq_true_eq] using h

theorem isIdentStart_bounds {c : Char} (h : isIdentStart c = true) :
    (97 ≤ c.toNat ∧ c.toNat ≤ 122) ∨ (65 ≤ c.toNat ∧ c.toNat ≤ 90) ∨ c.toNat = 95 := by
  have h' : ((97 ≤ c.toNat ∧ c.toNat ≤ 122) ∨ (65 ≤ c.toNat ∧ c.toNat ≤ 90)) ∨
      c.toNat = 95 := by
    simpa [isIdentStart, Bool.or_eq_true, Bool.and_eq_true, decide_eq_true_eq,
      beq_iff_eq] using h
  tauto

theorem isIdentChar_bounds {c : Char} (h : isIdentChar c = true) :
    (97 ≤ c.toNat ∧ c.toNat ≤ 122) ∨ (65 ≤ c.toNat ∧ c.toNat ≤ 90) ∨ c.toNat = 95 ∨
      (48 ≤ c.toNat ∧ c.toNat ≤ 57) := by
  rw [isIdentChar, Bool.or_eq_true] at h
  rcases h with h | h
  · rcases isIdentStart_bounds h with h | h | h
    · exact .inl h
    · exact .inr (.inl h)
    · exact .inr (.inr (.inl h))
  · exact .inr (.inr (.inr (isDigitChar_bounds h)))

theorem isNumChar_bounds {c : Char} (h : isNumChar c = true) :
    c.toNat = 46 ∨ (48 ≤ c.toNat ∧ c.toNat ≤ 57) := by
  rw [isNumChar, Bool.or_eq_true] at h
  rcases h with h | h
  · left
    have : c = '.' := by simpa [beq_iff_eq] using h
    subst this; rfl
  · exact .inr (isDigitChar_bounds h)

theorem isDigitChar_utf8Size {c : Char} (h : isDigitChar c = true) : c.utf8Size = 1 :=
  utf8Size_eq_one (by have := isDigitChar_bounds h; omega)

theorem isIdentChar_utf8Size {c : Char} (h : isIdentChar c = true) : c.utf8Size = 1 :=
  utf8Size_eq_one (by have := isIdentChar_bounds h; omega)

theorem isNumChar_utf8Size {c : Char} (h : isNumChar c = true) : c.utf8Size = 1 :=
  utf8Size_eq_one (by have := isNumChar_bounds h; omega)

theorem digit_not_ws {c : Char} (h : isDigitChar c = true) : rustIsWhitespace c = false := by
  obtain ⟨h1, h2⟩ := isDigitChar_bounds h
  simp only [rustIsWhitespace, Bool.or_eq_false_iff, Bool.and_eq_false_iff,
    decide_eq_false_iff_not, Nat.not_le, beq_eq_false_iff_ne, ne_eq]
  omega

theorem identStart_not_ws {c : Char} (h : isIdentStart c = true) :
    rustIsWhitespace c = false := by
  have hb := isIdentStart_bounds h
  simp only [rustIsWhitespace, Bool.or_eq_false_iff, Bool.and_eq_false_iff,
    decide_eq_false_iff_not, Nat.not_le, beq_eq_false_iff_ne, ne_eq]
  omega

theorem identStart_not_digit {c : Char} (h : isIdentStart c = true) :
    isDigitChar c = false := by
  have hb := isIdentStart_bounds h
  simp only [isDigitChar, Bool.and_eq_false_iff, decide_eq_false_iff_not, Nat.not_le]
  omega

theorem isIdentStart_isIdentChar {c : Char} (h : isIdentStart c = true) :
    isIdentChar c = true := by
  simp [isIdentChar, h]

theorem isDigitChar_isNumChar {c : Char} (h : isDigitChar c = true) :
    isNumChar c = true := by
  simp [isNumChar, h]

theorem isDigitChar_ne_dot {c : Char} (h : isDigitChar c = true) : (c != '.') = true := by
  have := isDigitChar_bounds h
  simp only [bne_iff_ne, ne_eq]
  intro e; subst e; simp at this

theorem ne_of_pred {p : Char → Bool} {c d : Char} (h : p c = true) (hd : p d = false) :
    c ≠ d := by
  intro e; subst e; rw [h] at hd; exact Bool.noConfusion hd

theorem takeWhile_append_all {p : Char → Bool} {a : List Char}
    (h : ∀ x ∈ a, p x = true) (b : List Char) :
    (a ++ b).takeWhile p = a ++ b.takeWhile p := by
  induction a with
  | nil => simp
  | cons c a ih =>
    have hc := h c (by simp)
    simp only [List.cons_append, List.takeWhile_cons, hc, if_true]
    rw [ih (fun x hx => h x (by simp [hx]))]

theorem dropWhile_append_all {p : Char → Bool} {a : List Char}
    (h : ∀ x ∈ a, p x = true) (b : List Char) :
    (a ++ b).dropWhile p = b.dropWhile p := by
  induction a with
  | nil => simp
  | cons c a ih =>
    have hc := h c (by simp)
    simp only [List.cons_append, List.dropWhile_cons, hc, if_true]
    exact ih (fun x hx => h x (by simp [hx]))

theorem takeWhile_all {p : Char → Bool} {a : List Char}
    (h : ∀ x ∈ a, p x = true) : a.takeWhile p = a := by
  simpa using takeWhile_append_all h []

theorem takeWhile_append_stop {p : Char → Bool} {a : List Char} {x : Char}
    (h : ∀ y ∈ a, p y = true) (hx : p x = false) (l : List Char) :
    (a ++ x :: l).takeWhile p = a := by
  rw [takeWhile_append_all h, List.takeWhile_cons, if_neg (by simp [hx]), List.append_nil]

theorem dropWhile_append_stop {p : Char → Bool} {a : List Char} {x : Char}
    (h : ∀ y ∈ a, p y = true) (hx : p x = false) (l : List Char) :
    (a ++ x :: l).dropWhile p = x :: l := by
  rw [dropWhile_append_all h, List.dropWhile_cons, if_neg (by simp [hx])]

theorem dropWhile_head_false {p : Char → Bool} {l t : List Char} {a : Char}
    (h : l.dropWhile p = a :: t) : p a = false := by
  induction l with
  | nil => exact absurd h (by simp)
  | cons c l ih =>
    rw [List.dropWhile_cons] at h
    by_cases hc : p c = true
    · rw [if_pos hc] at h; exact ih h
    · rw [if_neg hc] at h
      obtain ⟨rfl, -⟩ := List.cons.inj h
      exact Bool.eq_false_iff.2 hc

theorem dropWhile_ne_of_mem {x : Char} {l : List Char} (h : x ∈ l) :
    ∃ t, l.dropWhile (fun d => d != x) = x :: t := by
  rcases hd : l.dropWhile (fun d => d != x) with _ | ⟨a, t⟩
  · exfalso
    have hl : l.takeWhile (fun d => d != x) = l := by
      conv_rhs => rw [← List.takeWhile_append_dropWhile (fun d => d != x) l]
      rw [hd, List.append_nil]
    have := List.mem_takeWhile_imp (hl ▸ h)
    simp at this
  · have hax : a = x := by simpa using dropWhile_head_false hd
    subst hax
    exact ⟨t, rfl⟩

/-! Reduction lemmas for `skipTrivia` and `isGapRun`. -/

theorem skipTrivia_nil (m : Bool) (b : Nat) : skipTrivia m [] b = ([], b) := by
  cases m <;> rfl

theorem skipTrivia_true_nl (cs : List Char) (b : Nat) :
    skipTrivia true ('\n' :: cs) b = skipTrivia false cs (b + 1) := by
  simp [skipTrivia]

theorem skipTrivia_true_other {c : Char} (h : c ≠ '\n') (cs : List Char) (b : Nat) :
    skipTrivia true (c :: cs) b = skipTrivia true cs (b + c.utf8Size) := by
  rw [skipTrivia, if_neg h]

theorem skipTrivia_ws {c : Char} (h : rustIsWhitespace c = true) (cs : List Char) (b : Nat) :
    skipTrivia false (c :: cs) b = skipTrivia false cs (b + c.utf8Size) := by
  rw [skipTrivia]
  · rw [if_pos h]
  · intro cs2 hc _
    subst hc
    exact absurd h (by decide)

theorem skipTrivia_comment (cs : List Char) (b : Nat) :
    skipTrivia false ('/' :: '/' :: cs) b = skipTrivia true cs (b + 2) := by
  rw [skipTrivia, if_neg (by decide)]

theorem skipTrivia_stop {c : Char} {cs : List Char}
    (hws : rustIsWhitespace c = false) (hs : ¬(c = '/' ∧ cs.head? = some '/'))
    (b : Nat) : skipTrivia false (c :: cs) b = (c :: cs, b) := by
  rw [skipTrivia]
  · rw [if_neg (by simp [hws])]
  · intro cs2 hc hcs
    exact hs ⟨hc, by rw [hcs]; rfl⟩

theorem isGapRun_nil (m : Bool) : isGapRun m [] = true := by cases m <;> rfl

theorem isGapRun_true_nl (cs : List Char) :
    isGapRun true ('\n' :: cs) = isGapRun false cs := by
  simp [isGapRun]

theorem isGapRun_true_other {c : Char} (h : c ≠ '\n') (cs : List Char) :
    isGapRun true (c :: cs) = isGapRun true cs := by
  rw [isGapRun, if_neg h]

theorem isGapRun_ws {c : Char} (h : rustIsWhitespace c = true) (cs : List Char) :
    isGapRun false (c :: cs) = isGapRun false cs := by
  rw [isGapRun]
  · rw [if_pos h]
  · intro cs2 hc _
    subst hc
    exact absurd h (by decide)

theorem isGapRun_comment (cs : List Char) :
    isGapRun false ('/' :: '/' :: cs) = isGapRun true cs := by
  rw [isGapRun, if_neg (by decide)]

theorem skipTrivia_spec : ∀ (n : Nat) (rest : List Char), rest.length ≤ n →
    ∀ (m : Bool) (b : Nat),
    ∃ g, rest = g ++ (skipTrivia m rest b).1 ∧ isGapRun m g = true ∧
      (skipTrivia m rest b).2 = b + utf8Len g ∧
      ((skipTrivia m rest b).1 = [] ∨
        ∃ c cs, (skipTrivia m rest b).1 = c :: cs ∧ rustIsWhitespace c = false ∧
          ¬(c = '/' ∧ cs.head? = some '/')) := by
  intro n
  induction n with
  | zero =>
    intro rest hr m b
    have : rest = [] := List.length_eq_zero.1 (Nat.le_zero.1 hr)
    subst this
    exact ⟨[], by simp [skipTrivia_nil, isGapRun_nil, utf8Len_nil]⟩
  | succ n ih =>
    intro rest hr m b
    cases rest with
    | nil => exact ⟨[], by simp [skipTrivia_nil, isGapRun_nil, utf8Len_nil]⟩
    | cons c cs =>
      have hcs : cs.length ≤ n := by simpa using hr
      cases m with
      | true =>
        by_cases hc : c = '\n'
        · subst hc
          obtain ⟨g, hg1, hg2, hg3, hg4⟩ := ih cs hcs false (b + 1)
          refine ⟨'\n' :: g, ?_, ?_, ?_, ?_⟩
          · rw [skipTrivia_true_nl, List.cons_append, ← hg1]
          · rw [isGapRun_true_nl]; exact hg2
          · rw [skipTrivia_true_nl, hg3, utf8Len_cons]
            have : ('\n').utf8Size = 1 := by decide
            omega
          · rw [skipTrivia_true_nl]; exact hg4
        · obtain ⟨g, hg1, hg2, hg3, hg4⟩ := ih cs hcs true (b + c.utf8Size)
          refine ⟨c :: g, ?_, ?_, ?_, ?_⟩
          · rw [skipTrivia_true_other hc, List.cons_append, ← hg1]
          · rw [isGapRun_true_other hc]; exact hg2
          · rw [skipTrivia_true_other hc, hg3, utf8Len_cons]; omega
          · rw [skipTrivia_true_other hc]; exact hg4
      | false =>
        by_cases hws : rustIsWhitespace c = true
        · obtain ⟨g, hg1, hg2, hg3, hg4⟩ := ih cs hcs false (b + c.utf8Size)
          refine ⟨c :: g, ?_, ?_, ?_, ?_⟩
          · rw [skipTrivia_ws hws, List.cons_append, ← hg1]
          · rw [isGapRun_ws hws]; exact hg2
          · rw [skipTrivia_ws hws, hg3, utf8Len_cons]; omega
          · rw [skipTrivia_ws hws]; exact hg4
        · have hws' : rustIsWhitespace c = false := Bool.eq_false_iff.2 hws
          by_cases hsl : c = '/' ∧ cs.head? = some '/'
          · obtain ⟨rfl, hh⟩ := hsl
            cases cs with
            | nil => exact absurd hh (by simp)
            | cons d cs2 =>
              have hd : d = '/' := by simpa using hh
              subst hd
              have hcs2 : cs2.length ≤ n := by
                simp only [List.length_cons] at hr
                omega
              obtain ⟨g, hg1, hg2, hg3, hg4⟩ := ih cs2 hcs2 true (b + 2)
              refine ⟨'/' :: '/' :: g, ?_, ?_, ?_, ?_⟩
              · rw [skipTrivia_comment, List.cons_append, List.cons_append, ← hg1]
              · rw [isGapRun_comment]; exact hg2
              · rw [skipTrivia_comment, hg3, utf8Len_cons, utf8Len_cons]
                have : ('/' : Char).utf8Size = 1 := by decide
                rw [this]; omega
              · rw [skipTrivia_comment]; exact hg4
          · refine ⟨[], ?_, ?_, ?_, ?_⟩
            · rw [skipTrivia_stop hws' hsl]
              rfl
            · exact isGapRun_nil false
            · rw [skipTrivia_stop hws' hsl]; simp [utf8Len_nil]
            · rw [skipTrivia_stop hws' hsl]
              exact .inr ⟨c, cs, rfl, hws', hsl⟩



/-! Per-branch step specifications: every dispatch branch satisfies `StepOk`. -/

theorem stepOk_single (whole : List Char) (c : Char) (cs : List Char) (byte : Nat)
    (k : TokenKind) : StepOk whole c cs byte (.ok ⟨[c], k⟩, cs, byte + c.utf8Size) := by
  refine ⟨[c], [], by simp, by simp, by simp, ?_, rfl⟩
  simp [utf8Len_cons, utf8Len_nil]

theorem lexString_spec {whole pre cs : List Char} {byte : Nat}
    (hw : whole = pre ++ '"' :: cs) (hb : byte = utf8Len pre) :
    StepOk whole '"' cs byte (lexString whole '"' cs (byte + 1)) := by
  by_cases hm : '"' ∈ cs
  · obtain ⟨t, ht⟩ := dropWhile_ne_of_mem hm
    have hsplit : cs = cs.takeWhile (fun d => d != '"') ++ '"' :: t := by
      conv_lhs => rw [← List.takeWhile_append_dropWhile (fun d => d != '"') cs]
      rw [ht]
    simp only [lexString, hm, if_true]
    refine ⟨('"' :: cs.takeWhile (fun d => d != '"')) ++ ['"'], [], ?_, by simp, by simp,
      ?_, rfl⟩
    · rw [ht]
      simp only [List.nil_append, List.drop_one, List.tail_cons]
      conv_lhs => rw [hsplit]
      simp
    · have hq : ('"' : Char).utf8Size = 1 := by decide
      simp only [utf8Len_append, utf8Len_cons, utf8Len_nil, hq]
      omega
  · simp only [lexString, hm, if_false]
    have hq : ('"' : Char).utf8Size = 1 := by decide
    refine ⟨'"' :: cs, [], by simp, by simp, by simp, ?_, ?_⟩
    · simp only [utf8Len_cons, utf8Len_nil, hq]
      omega
    · show sliceBytes whole (byte + 1 - Char.utf8Size '"') (utf8Len whole) = '"' :: cs
      rw [hq]
      have h1 : byte + 1 - 1 = byte := by omega
      rw [h1, sliceBytes, hw, hb, dropBytes_exact]
      have h2 : utf8Len (pre ++ '"' :: cs) - utf8Len pre = utf8Len ('"' :: cs) := by
        rw [utf8Len_append]; omega
      rw [h2, takeBytes_self]

theorem lexIdent_spec {c : Char} (h : isIdentStart c = true)
    (whole cs : List Char) (byte : Nat) :
    StepOk whole c cs byte (lexIdent c cs (byte + c.utf8Size)) := by
  have hc : isIdentChar c = true := isIdentStart_isIdentChar h
  have hlit : (c :: cs).takeWhile isIdentChar = c :: cs.takeWhile isIdentChar := by
    rw [List.takeWhile_cons, if_pos hc]
  simp only [lexIdent]
  refine ⟨(c :: cs).takeWhile isIdentChar, [], ?_, by simp [hlit], by simp, ?_, rfl⟩
  · simp only [List.nil_append]
    exact (List.takeWhile_append_dropWhile isIdentChar (c :: cs)).symm
  · have hsz : c.utf8Size ≤ utf8Len ((c :: cs).takeWhile isIdentChar) := by
      rw [hlit, utf8Len_cons]; omega
    simp only [utf8Len_nil]
    omega

theorem lexOperator_spec {c : Char} (hsz : c.utf8Size = 1)
    (whole cs : List Char) (byte : Nat) (yes no : TokenKind) :
    StepOk whole c cs byte (lexOperator yes no c cs (byte + c.utf8Size)) := by
  have hws : ∀ d ∈ cs.takeWhile rustIsWhitespace, rustIsWhitespace d = true :=
    fun d hd => List.mem_takeWhile_imp hd
  have hcs : cs = cs.takeWhile rustIsWhitespace ++ cs.dropWhile rustIsWhitespace :=
    (List.takeWhile_append_dropWhile rustIsWhitespace cs).symm
  have hlen : utf8Len cs = utf8Len (cs.takeWhile rustIsWhitespace) +
      utf8Len (cs.dropWhile rustIsWhitespace) := by
    conv_lhs => rw [hcs]
    exact utf8Len_append _ _
  simp only [lexOperator]
  by_cases heq : (cs.dropWhile rustIsWhitespace).head? = some '='
  · rw [if_pos heq]
    obtain ⟨rest2, hdrop⟩ : ∃ rest2, cs.dropWhile rustIsWhitespace = '=' :: rest2 := by
      rcases hd : cs.dropWhile rustIsWhitespace with _ | ⟨d, r2⟩
      · rw [hd] at heq; exact absurd heq (by simp)
      · rw [hd] at heq
        have : d = '=' := by simpa using heq
        exact ⟨r2, by rw [this]⟩
    refine ⟨c :: (cs.takeWhile rustIsWhitespace ++ ['=']), [], ?_, by simp, by simp, ?_, rfl⟩
    · rw [hdrop]
      simp only [List.tail_cons, List.nil_append]
      conv_lhs => rw [hcs, hdrop]
      simp
    · rw [hdrop]
      have he : ('=' : Char).utf8Size = 1 := by decide
      rw [hdrop, utf8Len_cons, he] at hlen
      simp only [utf8Len_nil, utf8Len_cons, utf8Len_append, hsz, he]
      omega
  · rw [if_neg heq]
    refine ⟨[c], cs.takeWhile rustIsWhitespace, ?_, by simp, hws, ?_, rfl⟩
    · conv_lhs => rw [hcs]
      simp
    · simp only [utf8Len_cons, utf8Len_nil, hsz]
      omega


/-! The number branch: the digit/dot filtering always yields a parsable
literal. -/

theorem isDigitChar_dot : isDigitChar '.' = false := by decide

theorem numChar_not_dot_digit {d : Char} (h1 : isNumChar d = true)
    (h2 : (d != '.') = true) : isDigitChar d = true := by
  rw [isNumChar, Bool.or_eq_true] at h1
  rcases h1 with h1 | h1
  · rw [beq_iff_eq] at h1; subst h1; simp at h2
  · exact h1

theorem dropWhile_all {p : Char → Bool} {a : List Char} (h : ∀ x ∈ a, p x = true) :
    a.dropWhile p = [] := by
  induction a with
  | nil => rfl
  | cons c a ih =>
    rw [List.dropWhile_cons, if_pos (h c (by simp))]
    exact ih (fun x hx => h x (by simp [hx]))

theorem parseNumber_digits {a : List Char} (ha : a ≠ [])
    (hd : ∀ d ∈ a, isDigitChar d = true) :
    parseNumber a = some ((digitsVal a : ℚ)) := by
  have hane : a.isEmpty = false := by
    cases a
    · exact absurd rfl ha
    · rfl
  simp only [parseNumber]
  rw [dropWhile_all hd, takeWhile_all hd]
  simp [hane]

theorem mkRat_decimal (a b k : Nat) :
    mkRat (a * 10 ^ k + b) (10 ^ k) = (a : ℚ) + (b : ℚ) / (10 : ℚ) ^ k := by
  have h10 : ((10 : ℚ) ^ k) ≠ 0 := by positivity
  rw [Rat.mkRat_eq_divInt, Rat.divInt_eq_div]
  push_cast
  field_simp

theorem parseNumber_frac {a b : List Char} (ha : a ≠ [])
    (hda : ∀ d ∈ a, isDigitChar d = true) (hdb : ∀ d ∈ b, isDigitChar d = true) :
    parseNumber (a ++ '.' :: b) =
      some ((digitsVal a : ℚ) + (digitsVal b : ℚ) / (10 : ℚ) ^ b.length) := by
  have hane : a.isEmpty = false := by
    cases a
    · exact absurd rfl ha
    · rfl
  have hall : b.all isDigitChar = true := List.all_eq_true.2 hdb
  simp only [parseNumber]
  rw [dropWhile_append_stop hda isDigitChar_dot, takeWhile_append_stop hda isDigitChar_dot]
  simp [hall, hane, mkRat_decimal]

theorem prefix_append_cons {one two t1 : List Char} (h : two <+: t1) :
    one ++ '.' :: two <+: one ++ '.' :: t1 := by
  obtain ⟨r, hr⟩ := h
  exact ⟨r, by simp [← hr]⟩

theorem numberLiteral_eq_nodot {run : List Char}
    (h : run.dropWhile (fun d => d != '.') = []) : numberLiteral run = run := by
  simp only [numberLiteral]
  rw [h]

theorem numberLiteral_eq_dot {run t1 : List Char}
    (h : run.dropWhile (fun d => d != '.') = '.' :: t1) :
    numberLiteral run =
      (match t1.dropWhile (fun d => d != '.') with
       | [] => if (t1.takeWhile (fun d => d != '.')).isEmpty then
           run.takeWhile (fun d => d != '.') else run
       | _ :: _ => run.takeWhile (fun d => d != '.') ++ '.' :: t1.takeWhile (fun d => d != '.')) := by
  simp only [numberLiteral]
  rw [h]

theorem numberLiteral_eq_dot_nil {run t1 : List Char}
    (h : run.dropWhile (fun d => d != '.') = '.' :: t1)
    (h2 : t1.dropWhile (fun d => d != '.') = []) :
    numberLiteral run = if (t1.takeWhile (fun d => d != '.')).isEmpty then
      run.takeWhile (fun d => d != '.') else run := by
  rw [numberLiteral_eq_dot h, h2]

theorem numberLiteral_eq_dot_cons {run t1 f : _} {t2 : List Char}
    (h : run.dropWhile (fun d => d != '.') = '.' :: t1)
    (h2 : t1.dropWhile (fun d => d != '.') = f :: t2) :
    numberLiteral run =
      run.takeWhile (fun d => d != '.') ++ '.' :: t1.takeWhile (fun d => d != '.') := by
  rw [numberLiteral_eq_dot h, h2]

theorem lexNumber_eq {c : Char} (h : isDigitChar c = true)
    (whole cs : List Char) (byte1 : Nat) :
    ∃ literal rem q, c :: cs = literal ++ rem ∧ literal ≠ [] ∧
      numberLiteral ((c :: cs).takeWhile isNumChar) = literal ∧
      parseNumber literal = some q ∧
      lexNumber whole c cs byte1 =
        (.ok ⟨literal, .Number q⟩, rem, byte1 + (utf8Len literal - c.utf8Size)) := by
  have hnc : isNumChar c = true := isDigitChar_isNumChar h
  obtain ⟨run, hrun⟩ : ∃ r, (c :: cs).takeWhile isNumChar = r := ⟨_, rfl⟩
  have hrunpre : run <+: c :: cs := by
    rw [← hrun]; exact List.takeWhile_prefix _
  have hrunmem : ∀ d ∈ run, isNumChar d = true := fun d hd =>
    List.mem_takeWhile_imp (by rw [hrun]; exact hd)
  have hrunc : run = c :: cs.takeWhile isNumChar := by
    rw [← hrun, List.takeWhile_cons, if_pos hnc]
  obtain ⟨one, hone⟩ : ∃ o, run.takeWhile (fun d => d != '.') = o := ⟨_, rfl⟩
  have honepre : one <+: run := by
    rw [← hone]; exact List.takeWhile_prefix _
  have honemem : ∀ d ∈ one, isDigitChar d = true := by
    intro d hd
    have hd' : d ∈ run.takeWhile (fun x => x != '.') := by rw [hone]; exact hd
    have hdot := List.mem_takeWhile_imp hd'
    exact numChar_not_dot_digit (hrunmem d (honepre.subset hd)) hdot
  have honec : one = c :: (cs.takeWhile isNumChar).takeWhile (fun d => d != '.') := by
    rw [← hone, hrunc, List.takeWhile_cons, if_pos (isDigitChar_ne_dot h)]
  have hone_ne : one ≠ [] := by rw [honec]; simp
  obtain ⟨lit, q, hlit, hpre, hne, hq⟩ : ∃ lit q, numberLiteral run = lit ∧
      lit <+: c :: cs ∧ lit ≠ [] ∧ parseNumber lit = some q := by
    rcases hr1 : run.dropWhile (fun d => d != '.') with _ | ⟨e, t1⟩
    · have hlit : numberLiteral run = run := numberLiteral_eq_nodot hr1
      have hrundig : ∀ d ∈ run, isDigitChar d = true := by
        have hh : run.takeWhile (fun d => d != '.') ++ run.dropWhile (fun d => d != '.') = run :=
          List.takeWhile_append_dropWhile _ _
        rw [hone, hr1, List.append_nil] at hh
        rw [← hh]
        exact honemem
      have hrun_ne : run ≠ [] := by rw [hrunc]; simp
      exact ⟨run, _, hlit, hrunpre, hrun_ne, parseNumber_digits hrun_ne hrundig⟩
    · have he : e = '.' := by simpa using dropWhile_head_false hr1
      subst he
      have hsplit : run = one ++ '.' :: t1 := by
        have hh : run.takeWhile (fun d => d != '.') ++ run.dropWhile (fun d => d != '.') = run :=
          List.takeWhile_append_dropWhile _ _
        rw [hone, hr1] at hh
        exact hh.symm
      have ht1mem : ∀ d ∈ t1, isNumChar d = true := fun d hd =>
        hrunmem d (by rw [hsplit]; simp [hd])
      obtain ⟨two, htwo⟩ : ∃ t, t1.takeWhile (fun d => d != '.') = t := ⟨_, rfl⟩
      have htwopre : two <+: t1 := by
        rw [← htwo]; exact List.takeWhile_prefix _
      have htwomem : ∀ d ∈ two, isDigitChar d = true := by
        intro d hd
        have hd' : d ∈ t1.takeWhile (fun x => x != '.') := by rw [htwo]; exact hd
        have hdot := List.mem_takeWhile_imp hd'
        exact numChar_not_dot_digit (ht1mem d (htwopre.subset hd)) hdot
      rcases hr2 : t1.dropWhile (fun d => d != '.') with _ | ⟨f, t2⟩
      · have ht1two : t1 = two := by
          have hh : t1.takeWhile (fun d => d != '.') ++ t1.dropWhile (fun d => d != '.') = t1 :=
            List.takeWhile_append_dropWhile _ _
          rw [htwo, hr2, List.append_nil] at hh
          exact hh.symm
        have hlit0 : numberLiteral run =
            if two.isEmpty then one else run := by
          rw [numberLiteral_eq_dot_nil hr1 hr2, hone, htwo]
        rcases htwoe : two.isEmpty with _ | _
        · have htwone : two ≠ [] := by
            intro he2; rw [he2] at htwoe; exact Bool.noConfusion htwoe
          have hq2 : parseNumber run = some ((digitsVal one : ℚ) +
              (digitsVal two : ℚ) / (10 : ℚ) ^ two.length) := by
            rw [hsplit, ht1two]
            exact parseNumber_frac hone_ne honemem htwomem
          refine ⟨run, _, ?_, hrunpre, (by rw [hrunc]; simp), hq2⟩
          rw [hlit0, if_neg (by simp [htwoe])]
        · have htwonil : two = [] := by
            cases two
            · rfl
            · exact Bool.noConfusion htwoe
          refine ⟨one, _, ?_, honepre.trans hrunpre, hone_ne,
            parseNumber_digits hone_ne honemem⟩
          rw [hlit0, if_pos (by simp [htwoe])]
      · have hlit2 : numberLiteral run = one ++ '.' :: two := by
          rw [numberLiteral_eq_dot_cons hr1 hr2, hone, htwo]
        have hlitpre : one ++ '.' :: two <+: c :: cs := by
          refine List.IsPrefix.trans ?_ hrunpre
          rw [hsplit]
          exact prefix_append_cons htwopre
        exact ⟨one ++ '.' :: two, _, hlit2, hlitpre, (by simp [hone_ne]),
          parseNumber_frac hone_ne honemem htwomem⟩
  obtain ⟨rem, hrem⟩ := hpre
  have hdrop2 : dropBytes (utf8Len lit) (c :: cs) = rem := by
    rw [← hrem, dropBytes_exact]
  refine ⟨lit, rem, q, hrem.symm, hne, by rw [hrun, hlit], hq, ?_⟩
  simp only [lexNumber, hrun, hlit, hdrop2, hq]


theorem lexNumber_spec {c : Char} (h : isDigitChar c = true)
    (whole cs : List Char) (byte : Nat) :
    StepOk whole c cs byte (lexNumber whole c cs (byte + c.utf8Size)) := by
  obtain ⟨literal, rem, q, h1, h2, hlit, h3, h4⟩ := lexNumber_eq h whole cs (byte + c.utf8Size)
  rw [h4]
  refine ⟨literal, [], ?_, h2, by simp, ?_, rfl⟩
  · simpa using h1
  · have hsz : c.utf8Size = 1 := isDigitChar_utf8Size h
    have hlen : 0 < utf8Len literal := utf8Len_pos h2
    simp only [utf8Len_nil]
    omega

/-! Reduction of `dispatch` on each character class. -/

theorem dispatch_digit {c : Char} (h : isDigitChar c = true)
    (whole cs : List Char) (byte : Nat) :
    dispatch whole c cs byte = lexNumber whole c cs (byte + c.utf8Size) := by
  have hne := fun (d : Char) (hd : isDigitChar d = false) => ne_of_pred h hd
  simp only [dispatch]
  rw [if_neg (hne '(' (by decide)), if_neg (hne ')' (by decide)),
    if_neg (hne '{' (by decide)), if_neg (hne '}' (by decide)),
    if_neg (hne ',' (by decide)), if_neg (hne '.' (by decide)),
    if_neg (hne '-' (by decide)), if_neg (hne '+' (by decide)),
    if_neg (hne ';' (by decide)), if_neg (hne '*' (by decide)),
    if_neg (hne '/' (by decide)), if_neg (hne '<' (by decide)),
    if_neg (hne '>' (by decide)), if_neg (hne '!' (by decide)),
    if_neg (hne '=' (by decide)), if_neg (hne '"' (by decide)), if_pos h]

theorem dispatch_identStart {c : Char} (h : isIdentStart c = true)
    (whole cs : List Char) (byte : Nat) :
    dispatch whole c cs byte = lexIdent c cs (byte + c.utf8Size) := by
  have hne := fun (d : Char) (hd : isIdentStart d = false) => ne_of_pred h hd
  simp only [dispatch]
  rw [if_neg (hne '(' (by decide)), if_neg (hne ')' (by decide)),
    if_neg (hne '{' (by decide)), if_neg (hne '}' (by decide)),
    if_neg (hne ',' (by decide)), if_neg (hne '.' (by decide)),
    if_neg (hne '-' (by decide)), if_neg (hne '+' (by decide)),
    if_neg (hne ';' (by decide)), if_neg (hne '*' (by decide)),
    if_neg (hne '/' (by decide)), if_neg (hne '<' (by decide)),
    if_neg (hne '>' (by decide)), if_neg (hne '!' (by decide)),
    if_neg (hne '=' (by decide)), if_neg (hne '"' (by decide)),
    if_neg (by simp [identStart_not_digit h]), if_pos h]

theorem dispatch_unexpected {c : Char}
    (hp : c ∉ ['(', ')', '{', '}', ',', '.', '-', '+', ';', '*', '/', '<', '>', '!', '=', '"'])
    (hdig : isDigitChar c = false) (hid : isIdentStart c = false)
    (whole cs : List Char) (byte : Nat) :
    dispatch whole c cs byte =
      (.error (.singleToken whole c (byte, byte + c.utf8Size)), cs, byte + c.utf8Size) := by
  simp only [List.mem_cons, List.not_mem_nil, or_false, not_or] at hp
  obtain ⟨h1, h2, h3, h4, h5, h6, h7, h8, h9, h10, h11, h12, h13, h14, h15, h16⟩ := hp
  have hb2 : byte + c.utf8Size - c.utf8Size = byte := by omega
  simp only [dispatch]
  rw [if_neg h1, if_neg h2, if_neg h3, if_neg h4, if_neg h5, if_neg h6, if_neg h7,
    if_neg h8, if_neg h9, if_neg h10, if_neg h11, if_neg h12, if_neg h13, if_neg h14,
    if_neg h15, if_neg h16, if_neg (by simp [hdig]), if_neg (by simp [hid]), hb2]

/-- Every dispatch step satisfies the consumed-span decomposition. -/
theorem dispatch_spec {whole pre : List Char} {c : Char} {cs : List Char} {byte : Nat}
    (hw : whole = pre ++ c :: cs) (hb : byte = utf8Len pre) :
    StepOk whole c cs byte (dispatch whole c cs byte) := by
  by_cases h1 : c = '('
  · subst h1; simpa [dispatch] using stepOk_single whole '(' cs byte .LeftParen
  by_cases h2 : c = ')'
  · subst h2; simpa [dispatch] using stepOk_single whole ')' cs byte .RightParen
  by_cases h3 : c = '{'
  · subst h3; simpa [dispatch] using stepOk_single whole '{' cs byte .LeftBrace
  by_cases h4 : c = '}'
  · subst h4; simpa [dispatch] using stepOk_single whole '}' cs byte .RightBrace
  by_cases h5 : c = ','
  · subst h5; simpa [dispatch] using stepOk_single whole ',' cs byte .Comma
  by_cases h6 : c = '.'
  · subst h6; simpa [dispatch] using stepOk_single whole '.' cs byte .Dot
  by_cases h7 : c = '-'
  · subst h7; simpa [dispatch] using stepOk_single whole '-' cs byte .Minus
  by_cases h8 : c = '+'
  · subst h8; simpa [dispatch] using stepOk_single whole '+' cs byte .Plus
  by_cases h9 : c = ';'
  · subst h9; simpa [dispatch] using stepOk_single whole ';' cs byte .Semicolon
  by_cases h10 : c = '*'
  · subst h10; simpa [dispatch] using stepOk_single whole '*' cs byte .Star
  by_cases h11 : c = '/'
  · subst h11; simpa [dispatch] using stepOk_single whole '/' cs byte .Slash
  by_cases h12 : c = '<'
  · subst h12
    simpa [dispatch] using lexOperator_spec (by decide) whole cs byte .LessEqual .Less
  by_cases h13 : c = '>'
  · subst h13
    simpa [dispatch] using lexOperator_spec (by decide) whole cs byte .GreaterEqual .Greater
  by_cases h14 : c = '!'
  · subst h14
    simpa [dispatch] using lexOperator_spec (by decide) whole cs byte .BangEqual .Bang
  by_cases h15 : c = '='
  · subst h15
    simpa [dispatch] using lexOperator_spec (by decide) whole cs byte .EqualEqual .Equal
  by_cases h16 : c = '"'
  · subst h16
    have hq : Char.utf8Size '"' = 1 := by decide
    simpa [dispatch, hq] using lexString_spec hw hb
  by_cases hdig : isDigitChar c = true
  · rw [dispatch_digit hdig]
    exact lexNumber_spec hdig whole cs byte
  by_cases hid : isIdentStart c = true
  · rw [dispatch_identStart hid]
    exact lexIdent_spec hid whole cs byte
  · have hp : c ∉ ['(', ')', '{', '}', ',', '.', '-', '+', ';', '*', '/', '<', '>', '!', '=', '"'] := by
      simp [List.mem_cons, h1, h2, h3, h4, h5, h6, h7, h8, h9, h10, h11, h12, h13, h14,
        h15, h16]
    rw [dispatch_unexpected hp (Bool.eq_false_iff.2 hdig) (Bool.eq_false_iff.2 hid)]
    refine ⟨[c], [], by simp, by simp, by simp, ?_, rfl⟩
    simp [utf8Len_cons, utf8Len_nil]


/-! Specification of one full `next` call. -/

theorem lexNext_eq_of_skip_nil {rest : List Char} {byte b1 : Nat} (whole : List Char)
    (hst : skipTrivia false rest byte = ([], b1)) :
    lexNext whole rest byte = (none, [], b1) := by
  rw [lexNext, hst]

theorem lexNext_eq_of_skip_cons {rest : List Char} {byte b1 : Nat} {c : Char}
    {cs : List Char} (whole : List Char)
    (hst : skipTrivia false rest byte = (c :: cs, b1)) :
    lexNext whole rest byte =
      (some (dispatch whole c cs b1).1, (dispatch whole c cs b1).2) := by
  rw [lexNext, hst]

theorem lexNext_nil (whole : List Char) (byte : Nat) :
    lexNext whole [] byte = (none, [], byte) :=
  lexNext_eq_of_skip_nil whole (skipTrivia_nil false byte)

theorem lexNext_none_spec {whole rest : List Char} {byte : Nat} {r' : List Char} {b' : Nat}
    (h : lexNext whole rest byte = (none, r', b')) :
    r' = [] ∧ isGapRun false rest = true ∧ b' = byte + utf8Len rest := by
  obtain ⟨g, hg1, hg2, hg3, hg4⟩ := skipTrivia_spec rest.length rest le_rfl false byte
  rcases hst : skipTrivia false rest byte with ⟨r1, b1⟩
  rw [hst] at hg1 hg3 hg4
  simp only at hg1 hg3 hg4
  cases r1 with
  | nil =>
    rw [lexNext_eq_of_skip_nil whole hst] at h
    simp only [Prod.mk.injEq] at h
    obtain ⟨-, hr', hb'⟩ := h
    rw [List.append_nil] at hg1
    subst hg1
    exact ⟨hr'.symm, hg2, by omega⟩
  | cons c cs =>
    rw [lexNext_eq_of_skip_cons whole hst] at h
    simp only [Prod.mk.injEq] at h
    exact absurd h.1 (by simp)

theorem lexNext_some_spec {whole pre rest : List Char} {byte : Nat}
    (hw : whole = pre ++ rest) (hb : byte = utf8Len pre)
    {it : Except LexError Token} {r' : List Char} {b' : Nat}
    (h : lexNext whole rest byte = (some it, r', b')) :
    ∃ g1 cons g2, rest = g1 ++ (cons ++ (g2 ++ r')) ∧ isGapRun false g1 = true ∧
      cons ≠ [] ∧ (∀ d ∈ g2, rustIsWhitespace d = true) ∧
      b' = byte + (utf8Len g1 + utf8Len cons + utf8Len g2) ∧
      consumedOf whole it = cons := by
  obtain ⟨g, hg1, hg2, hg3, hg4⟩ := skipTrivia_spec rest.length rest le_rfl false byte
  rcases hst : skipTrivia false rest byte with ⟨r1, b1⟩
  rw [hst] at hg1 hg3 hg4
  simp only at hg1 hg3 hg4
  cases r1 with
  | nil =>
    rw [lexNext_eq_of_skip_nil whole hst] at h
    simp only [Prod.mk.injEq] at h
    exact absurd h.1 (by simp)
  | cons c cs =>
    rw [lexNext_eq_of_skip_cons whole hst] at h
    simp only [Prod.mk.injEq, Prod.ext_iff, Option.some.injEq] at h
    obtain ⟨hit, hr', hb'⟩ := h
    have hw' : whole = (pre ++ g) ++ c :: cs := by
      rw [hw, hg1, List.append_assoc]
    have hb1 : b1 = utf8Len (pre ++ g) := by
      rw [utf8Len_append, ← hb, hg3]
    obtain ⟨cons, g2, hc1, hc2, hc3, hc4, hc5⟩ := dispatch_spec hw' hb1
    refine ⟨g, cons, g2, ?_, hg2, hc2, hc3, ?_, ?_⟩
    · rw [hg1, hc1, hr']
    · rw [← hb', hc4, hg3]
      omega
    · rw [← hit]
      exact hc5


/-! Accumulating the step decomposition over a whole run. -/

theorem isGapRun_false_ws_append {a : List Char} (h : ∀ d ∈ a, rustIsWhitespace d = true)
    (b : List Char) : isGapRun false (a ++ b) = isGapRun false b := by
  induction a with
  | nil => rfl
  | cons c a ih =>
    rw [List.cons_append, isGapRun_ws (h c (by simp))]
    exact ih fun d hd => h d (by simp [hd])

theorem interleave_nil_left (sp : List (List Char)) : interleave [] sp = [] := by
  cases sp <;> rfl

theorem interleave_cons_gap (x h : List Char) (t sp : List (List Char)) :
    interleave ((x ++ h) :: t) sp = x ++ interleave (h :: t) sp := by
  cases sp with
  | nil => rfl
  | cons s ss => simp [interleave, List.append_assoc]

theorem lexItemsF_succ_none {whole rest : List Char} {byte : Nat} {r' : List Char}
    {b' : Nat} (fuel : Nat) (h : lexNext whole rest byte = (none, r', b')) :
    lexItemsF whole (fuel + 1) rest byte = [] := by
  rw [lexItemsF, h]

theorem lexItemsF_succ_some {whole rest : List Char} {byte : Nat}
    {it : Except LexError Token} {r' : List Char} {b' : Nat} (fuel : Nat)
    (h : lexNext whole rest byte = (some it, r', b')) :
    lexItemsF whole (fuel + 1) rest byte = it :: lexItemsF whole fuel r' b' := by
  rw [lexItemsF, h]

theorem lexItemsF_decomp : ∀ (fuel : Nat) (rest : List Char) (byte : Nat)
    (pre whole : List Char), whole = pre ++ rest → byte = utf8Len pre →
    rest.length < fuel →
    ∃ gaps : List (List Char),
      gaps.length = (lexItemsF whole fuel rest byte).length + 1 ∧
      (∀ g ∈ gaps, isGapRun false g = true) ∧
      interleave gaps ((lexItemsF whole fuel rest byte).map (consumedOf whole)) = rest ∧
      (∀ s ∈ (lexItemsF whole fuel rest byte).map (consumedOf whole), s ≠ []) := by
  intro fuel
  induction fuel with
  | zero =>
    intro rest byte pre whole hw hb hf
    exact absurd hf (by omega)
  | succ fuel ih =>
    intro rest byte pre whole hw hb hf
    rcases hnext : lexNext whole rest byte with ⟨ro, r', b'⟩
    cases ro with
    | none =>
      have hval := lexItemsF_succ_none fuel hnext
      obtain ⟨-, hgap, -⟩ := lexNext_none_spec hnext
      refine ⟨[rest], by rw [hval]; rfl, ?_, by rw [hval]; rfl, by rw [hval]; intro s hs; exact absurd hs (by simp)⟩
      intro g hg
      simp only [List.mem_cons, List.not_mem_nil, or_false] at hg
      subst hg
      exact hgap
    | some it =>
      obtain ⟨g1, cons, g2, hd1, hd2, hd3, hd4, hd5, hd6⟩ := lexNext_some_spec hw hb hnext
      have hval := lexItemsF_succ_some fuel hnext
      have hw' : whole = (pre ++ (g1 ++ (cons ++ g2))) ++ r' := by
        rw [hw, hd1]
        simp [List.append_assoc]
      have hb' : b' = utf8Len (pre ++ (g1 ++ (cons ++ g2))) := by
        rw [hd5, hb]
        simp only [utf8Len_append]
        omega
      have hr'len : r'.length < fuel := by
        have hrl : rest.length = g1.length + (cons.length + (g2.length + r'.length)) := by
          rw [hd1]; simp
        have hc : 0 < cons.length := List.length_pos.2 hd3
        omega
      obtain ⟨gaps', hl', hg', hi', hs'⟩ := ih r' b' _ whole hw' hb' hr'len
      rcases gaps' with _ | ⟨gh, gt⟩
      · exact absurd hl' (by simp)
      refine ⟨g1 :: (g2 ++ gh) :: gt, ?_, ?_, ?_, ?_⟩
      · rw [hval]
        simp only [List.length_cons] at hl' ⊢
        omega
      · intro g hg
        simp only [List.mem_cons] at hg
        rcases hg with rfl | rfl | hg
        · exact hd2
        · rw [isGapRun_false_ws_append hd4]
          exact hg' gh (by simp)
        · exact hg' g (by simp [hg])
      · rw [hval, List.map_cons, hd6, interleave, interleave_cons_gap, hi']
        exact hd1.symm
      · intro sp hsp
        rw [hval, List.map_cons, hd6] at hsp
        simp only [List.mem_cons] at hsp
        rcases hsp with rfl | hsp
        · exact hd3
        · exact hs' sp hsp


/-! Byte ranges of the consumed spans are strictly increasing and
non-overlapping. -/

theorem spanRanges_spec : ∀ (spans gaps : List (List Char)) (o : Nat),
    (∀ s ∈ spans, s ≠ []) →
    (∀ r ∈ spanRanges o gaps spans, o ≤ r.1 ∧ r.1 < r.2) ∧
    List.Chain' (fun r1 r2 => r1.2 ≤ r2.1) (spanRanges o gaps spans) := by
  intro spans
  induction spans with
  | nil =>
    intro gaps o h
    constructor
    · intro r hr
      rcases gaps <;> exact absurd hr (by simp [spanRanges])
    · rcases gaps <;> simp [spanRanges]
  | cons s ss ih =>
    intro gaps o hne
    have hs : 0 < utf8Len s := utf8Len_pos (hne s (by simp))
    have hne' : ∀ t ∈ ss, t ≠ [] := fun t ht => hne t (by simp [ht])
    cases gaps with
    | nil =>
      obtain ⟨ihmem, ihchain⟩ := ih [] (o + utf8Len s) hne'
      rw [spanRanges]
      constructor
      · intro r hr
        simp only [List.mem_cons] at hr
        rcases hr with rfl | hr
        · exact ⟨le_rfl, by omega⟩
        · have := ihmem r hr
          omega
      · rw [List.chain'_cons']
        refine ⟨?_, ihchain⟩
        intro y hy
        have hm : y ∈ spanRanges (o + utf8Len s) [] ss := List.mem_of_mem_head? hy
        have := ihmem y hm
        simp only
        omega
    | cons g gs =>
      obtain ⟨ihmem, ihchain⟩ := ih gs (o + utf8Len g + utf8Len s) hne'
      rw [spanRanges]
      constructor
      · intro r hr
        simp only [List.mem_cons] at hr
        rcases hr with rfl | hr
        · exact ⟨by omega, by omega⟩
        · have := ihmem r hr
          omega
      · rw [List.chain'_cons']
        refine ⟨?_, ihchain⟩
        intro y hy
        have hm : y ∈ spanRanges (o + utf8Len g + utf8Len s) gs ss := List.mem_of_mem_head? hy
        have := ihmem y hm
        simp only
        omega


/-! Claim theorems. -/

/-- C1: for every input buffer, the consumed byte spans of the items the
lexer yields — each token's origin, the single character of an
`UnexpectedCharacter`, the opening-quote-to-end-of-input region of an
`UnterminatedString` — interleaved with whitespace/comment gaps,
reconstruct the buffer exactly; every consumed span is non-empty, and the
derived byte ranges are strictly increasing and pairwise non-overlapping. -/
theorem c1_partition (input : List Char) :
    ∃ gaps : List (List Char),
      gaps.length = (lexAll input).length + 1 ∧
      (∀ g ∈ gaps, isGapRun false g = true) ∧
      interleave gaps ((lexAll input).map (consumedOf input)) = input ∧
      (∀ s ∈ (lexAll input).map (consumedOf input), s ≠ []) ∧
      (∀ r ∈ spanRanges 0 gaps ((lexAll input).map (consumedOf input)), r.1 < r.2) ∧
      List.Chain' (fun r1 r2 => r1.2 ≤ r2.1)
        (spanRanges 0 gaps ((lexAll input).map (consumedOf input))) := by
  obtain ⟨gaps, h1, h2, h3, h4⟩ := lexItemsF_decomp (input.length + 1) input 0 [] input
    (by simp) rfl (by omega)
  obtain ⟨h5, h6⟩ := spanRanges_spec ((lexAll input).map (consumedOf input)) gaps 0 h4
  exact ⟨gaps, h1, h2, h3, h4, fun r hr => (h5 r hr).2, h6⟩

/-- Witness for C1 at a concrete input: the decomposition exists for
`"( )"`. -/
theorem c1_partition_witness :
    ∃ gaps : List (List Char),
      gaps.length = (lexAll "( )".toList).length + 1 ∧
      (∀ g ∈ gaps, isGapRun false g = true) ∧
      interleave gaps ((lexAll "( )".toList).map (consumedOf "( )".toList)) = "( )".toList ∧
      (∀ s ∈ (lexAll "( )".toList).map (consumedOf "( )".toList), s ≠ []) ∧
      (∀ r ∈ spanRanges 0 gaps ((lexAll "( )".toList).map (consumedOf "( )".toList)),
        r.1 < r.2) ∧
      List.Chain' (fun r1 r2 => r1.2 ≤ r2.1)
        (spanRanges 0 gaps ((lexAll "( )".toList).map (consumedOf "( )".toList))) :=
  c1_partition _


/-! C2: the truncate-at-second-dot policy. -/

theorem isNumChar_dot : isNumChar '.' = true := by decide

theorem digits_are_numChars {a : List Char} (h : ∀ d ∈ a, isDigitChar d = true) :
    ∀ d ∈ a, isNumChar d = true :=
  fun d hd => isDigitChar_isNumChar (h d hd)

theorem digits_ne_dot {a : List Char} (h : ∀ d ∈ a, isDigitChar d = true) :
    ∀ d ∈ a, (d != '.') = true :=
  fun d hd => isDigitChar_ne_dot (h d hd)

theorem numberLiteral_two_dots {a b : List Char} (t : List Char)
    (hda : ∀ d ∈ a, isDigitChar d = true) (hdb : ∀ d ∈ b, isDigitChar d = true) :
    numberLiteral ((a ++ '.' :: (b ++ '.' :: t)).takeWhile isNumChar) = a ++ '.' :: b := by
  have hrun : (a ++ '.' :: (b ++ '.' :: t)).takeWhile isNumChar =
      a ++ '.' :: (b ++ '.' :: t.takeWhile isNumChar) := by
    rw [takeWhile_append_all (digits_are_numChars hda), List.takeWhile_cons,
      if_pos isNumChar_dot, takeWhile_append_all (digits_are_numChars hdb),
      List.takeWhile_cons, if_pos isNumChar_dot]
  have hdot : (('.' : Char) != '.') = false := by decide
  have hdrop1 : (a ++ '.' :: (b ++ '.' :: t.takeWhile isNumChar)).dropWhile
      (fun d => d != '.') = '.' :: (b ++ '.' :: t.takeWhile isNumChar) :=
    dropWhile_append_stop (digits_ne_dot hda) hdot _
  have hdrop2 : (b ++ '.' :: t.takeWhile isNumChar).dropWhile (fun d => d != '.') =
      '.' :: t.takeWhile isNumChar :=
    dropWhile_append_stop (digits_ne_dot hdb) hdot _
  rw [hrun, numberLiteral_eq_dot_cons hdrop1 hdrop2,
    takeWhile_append_stop (digits_ne_dot hda) hdot,
    takeWhile_append_stop (digits_ne_dot hdb) hdot]

theorem numberLiteral_trailing_dot {a : List Char} (t : List Char)
    (hda : ∀ d ∈ a, isDigitChar d = true)
    (ht : ∀ d, t.head? = some d → isNumChar d = false) :
    numberLiteral ((a ++ '.' :: t).takeWhile isNumChar) = a := by
  have htw : t.takeWhile isNumChar = [] := by
    cases t with
    | nil => rfl
    | cons d t' => rw [List.takeWhile_cons, if_neg (by simp [ht d rfl])]
  have hrun : (a ++ '.' :: t).takeWhile isNumChar = a ++ '.' :: [] := by
    rw [takeWhile_append_all (digits_are_numChars hda), List.takeWhile_cons,
      if_pos isNumChar_dot, htw]
  have hdot : (('.' : Char) != '.') = false := by decide
  have hdrop1 : (a ++ '.' :: ([] : List Char)).dropWhile (fun d => d != '.') =
      '.' :: ([] : List Char) :=
    dropWhile_append_stop (digits_ne_dot hda) hdot _
  rw [hrun, numberLiteral_eq_dot_nil hdrop1 rfl, if_pos (by rfl),
    takeWhile_append_stop (digits_ne_dot hda) hdot]

theorem lexNext_digit {c : Char} (h : isDigitChar c = true) (whole cs : List Char)
    (byte : Nat) :
    lexNext whole (c :: cs) byte =
      (some (lexNumber whole c cs (byte + c.utf8Size)).1,
        (lexNumber whole c cs (byte + c.utf8Size)).2) := by
  have hslash : c ≠ '/' := ne_of_pred h (by decide)
  have hst := @skipTrivia_stop c cs (digit_not_ws h) (fun hc => hslash hc.1) byte
  rw [lexNext_eq_of_skip_cons whole hst, dispatch_digit h]

/-- C2: a digit-started run with two or more dot separators is truncated
after the first complete `integer.fraction` segment; a run with a single,
trailing dot drops it; `1.2.3` lexes as `Number 1.2` with origin `1.2`,
then `Dot`, then `Number 3`. -/
theorem c2_number_truncation :
    (∀ (whole a b t : List Char) (byte : Nat), a ≠ [] →
      (∀ d ∈ a, isDigitChar d = true) → (∀ d ∈ b, isDigitChar d = true) →
      lexNext whole (a ++ '.' :: (b ++ '.' :: t)) byte =
        (some (.ok ⟨a ++ '.' :: b,
          .Number ((digitsVal a : ℚ) + (digitsVal b : ℚ) / (10 : ℚ) ^ b.length)⟩),
          '.' :: t, byte + utf8Len (a ++ '.' :: b))) ∧
    (∀ (whole a t : List Char) (byte : Nat), a ≠ [] →
      (∀ d ∈ a, isDigitChar d = true) →
      (∀ d, t.head? = some d → isNumChar d = false) →
      lexNext whole (a ++ '.' :: t) byte =
        (some (.ok ⟨a, .Number ((digitsVal a : ℚ))⟩), '.' :: t, byte + utf8Len a)) ∧
    lexAll "1.2.3".toList =
      [.ok ⟨"1.2".toList, .Number (mkRat 6 5)⟩, .ok ⟨".".toList, .Dot⟩,
        .ok ⟨"3".toList, .Number ((3 : ℚ))⟩] := by
  refine ⟨?_, ?_, by decide⟩
  · intro whole a b t byte ha hda hdb
    obtain ⟨c, a', rfl⟩ : ∃ c a', a = c :: a' := by
      cases a with
      | nil => exact absurd rfl ha
      | cons c a' => exact ⟨c, a', rfl⟩
    have hc : isDigitChar c = true := hda c (by simp)
    rw [List.cons_append, lexNext_digit hc]
    obtain ⟨literal, rem, q, h1, h2, hlit, hq, h4⟩ :=
      lexNumber_eq hc whole (a' ++ '.' :: (b ++ '.' :: t)) (byte + c.utf8Size)
    rw [← List.cons_append] at h1 hlit
    rw [numberLiteral_two_dots t hda hdb] at hlit
    subst hlit
    have hassoc : (c :: a') ++ '.' :: (b ++ '.' :: t) =
        ((c :: a') ++ '.' :: b) ++ '.' :: t := by
      simp
    rw [hassoc] at h1
    have hrem : rem = '.' :: t := List.append_cancel_left h1.symm
    subst hrem
    have hqv := parseNumber_frac ha hda hdb
    rw [hq] at hqv
    have hqv2 : q = (digitsVal (c :: a') : ℚ) +
        (digitsVal b : ℚ) / (10 : ℚ) ^ b.length := Option.some.inj hqv
    subst hqv2
    rw [h4]
    have hsz : c.utf8Size ≤ utf8Len ((c :: a') ++ '.' :: b) := by
      rw [List.cons_append, utf8Len_cons]
      omega
    have hbyte : byte + c.utf8Size + (utf8Len ((c :: a') ++ '.' :: b) - c.utf8Size) =
        byte + utf8Len ((c :: a') ++ '.' :: b) := by omega
    rw [hbyte]
  · intro whole a t byte ha hda ht
    obtain ⟨c, a', rfl⟩ : ∃ c a', a = c :: a' := by
      cases a with
      | nil => exact absurd rfl ha
      | cons c a' => exact ⟨c, a', rfl⟩
    have hc : isDigitChar c = true := hda c (by simp)
    rw [List.cons_append, lexNext_digit hc]
    obtain ⟨literal, rem, q, h1, h2, hlit, hq, h4⟩ :=
      lexNumber_eq hc whole (a' ++ '.' :: t) (byte + c.utf8Size)
    rw [← List.cons_append] at h1 hlit
    rw [numberLiteral_trailing_dot t hda ht] at hlit
    subst hlit
    have hassoc : (c :: a') ++ '.' :: t = ((c :: a') ++ []) ++ '.' :: t := by simp
    rw [hassoc] at h1
    have h1' : (c :: a') ++ ('.' :: t) = (c :: a') ++ rem := by
      simpa using h1
    have hrem : rem = '.' :: t := (List.append_cancel_left h1'.symm)
    subst hrem
    have hqv := parseNumber_digits ha hda
    rw [hq] at hqv
    have hqv2 : q = (digitsVal (c :: a') : ℚ) := Option.some.inj hqv
    subst hqv2
    rw [h4]
    have hsz : c.utf8Size ≤ utf8Len (c :: a') := by
      rw [utf8Len_cons]
      omega
    have hbyte : byte + c.utf8Size + (utf8Len (c :: a') - c.utf8Size) =
        byte + utf8Len (c :: a') := by omega
    rw [hbyte]

/-- Witness for C2: the general truncation and trailing-dot parts applied to
the runs `12.34.5` and `7.` (followed by `;`). -/
theorem c2_number_truncation_witness :
    lexNext "12.34.5".toList "12.34.5".toList 0 =
      (some (.ok ⟨"12.34".toList,
        .Number ((digitsVal "12".toList : ℚ) +
          (digitsVal "34".toList : ℚ) / (10 : ℚ) ^ ("34".toList).length)⟩),
        ".5".toList, utf8Len "12.34".toList) ∧
    lexNext "7.;".toList "7.;".toList 0 =
      (some (.ok ⟨"7".toList, .Number ((digitsVal "7".toList : ℚ))⟩),
        ".;".toList, utf8Len "7".toList) := by
  constructor
  · have h := c2_number_truncation.1 "12.34.5".toList ['1', '2'] ['3', '4'] ['5'] 0
      (by decide) (by decide) (by decide)
    simpa using h
  · have h := c2_number_truncation.2.1 "7.;".toList ['7'] [';'] 0
      (by decide) (by decide) (by decide)
    simpa using h


/-! C3: two-character operator lookahead absorbs whitespace. -/

theorem lexOperator_fused {ws : List Char} (hws : ∀ d ∈ ws, rustIsWhitespace d = true)
    (r : List Char) (yes no : TokenKind) (c : Char) (hsz : c.utf8Size = 1) (byte1 : Nat) :
    lexOperator yes no c (ws ++ '=' :: r) byte1 =
      (.ok ⟨c :: (ws ++ ['=']), yes⟩, r, byte1 + utf8Len ws + 1) := by
  have hdrop : (ws ++ '=' :: r).dropWhile rustIsWhitespace = '=' :: r :=
    dropWhile_append_stop hws (by decide) _
  have htake : (ws ++ '=' :: r).takeWhile rustIsWhitespace = ws :=
    takeWhile_append_stop hws (by decide) _
  simp only [lexOperator, hdrop, htake]
  rw [List.head?_cons, if_pos rfl]
  simp only [List.tail_cons]
  have harith : utf8Len (c :: (ws ++ '=' :: r)) - utf8Len ('=' :: r) - 1 = utf8Len ws := by
    rw [utf8Len_cons, utf8Len_append, utf8Len_cons, hsz]
    have he : ('=' : Char).utf8Size = 1 := by decide
    omega
  rw [harith]

/-- C3: one of `!`, `=`, `<`, `>` followed by any run of whitespace and then
`=` fuses into the single two-character kind whose origin covers the
operator, the whitespace, and the `=`; in particular `! =` is one
`BangEqual` token. -/
theorem c3_operator_fusion :
    (∀ (whole ws r : List Char) (byte : Nat) (op : Char) (yes no : TokenKind),
      (op, yes, no) ∈ [('!', TokenKind.BangEqual, TokenKind.Bang),
        ('=', TokenKind.EqualEqual, TokenKind.Equal),
        ('<', TokenKind.LessEqual, TokenKind.Less),
        ('>', TokenKind.GreaterEqual, TokenKind.Greater)] →
      (∀ d ∈ ws, rustIsWhitespace d = true) →
      lexNext whole (op :: (ws ++ '=' :: r)) byte =
        (some (.ok ⟨op :: (ws ++ ['=']), yes⟩), r, byte + utf8Len ws + 2)) ∧
    lexAll "! =".toList = [.ok ⟨"! =".toList, .BangEqual⟩] := by
  refine ⟨?_, by decide⟩
  intro whole ws r byte op yes no hmem hws
  have hgen : ∀ (c : Char), c.utf8Size = 1 → rustIsWhitespace c = false → c ≠ '/' →
      dispatch whole c (ws ++ '=' :: r) byte = lexOperator yes no c (ws ++ '=' :: r) (byte + 1) →
      lexNext whole (c :: (ws ++ '=' :: r)) byte =
        (some (.ok ⟨c :: (ws ++ ['=']), yes⟩), r, byte + utf8Len ws + 2) := by
    intro c hsz hcws hslash hdisp
    have hst := @skipTrivia_stop c (ws ++ '=' :: r) hcws (fun hc => hslash hc.1) byte
    rw [lexNext_eq_of_skip_cons whole hst, hdisp, lexOperator_fused hws r yes no c hsz]
    have harith2 : byte + 1 + utf8Len ws + 1 = byte + utf8Len ws + 2 := by omega
    rw [harith2]
  simp only [List.mem_cons, List.not_mem_nil, or_false, Prod.mk.injEq] at hmem
  rcases hmem with ⟨rfl, rfl, rfl⟩ | ⟨rfl, rfl, rfl⟩ | ⟨rfl, rfl, rfl⟩ | ⟨rfl, rfl, rfl⟩
  · exact hgen '!' (by decide) (by decide) (by decide)
      (by simp [dispatch, show Char.utf8Size '!' = 1 from by decide])
  · exact hgen '=' (by decide) (by decide) (by decide)
      (by simp [dispatch, show Char.utf8Size '=' = 1 from by decide])
  · exact hgen '<' (by decide) (by decide) (by decide)
      (by simp [dispatch, show Char.utf8Size '<' = 1 from by decide])
  · exact hgen '>' (by decide) (by decide) (by decide)
      (by simp [dispatch, show Char.utf8Size '>' = 1 from by decide])

/-- Witness for C3: the general fusion applied to `< \t=` with trailing
input. -/
theorem c3_operator_fusion_witness :
    lexNext "< \t=x".toList "< \t=x".toList 0 =
      (some (.ok ⟨'<' :: ([' ', '\t'] ++ ['=']), TokenKind.LessEqual⟩), ['x'],
        utf8Len [' ', '\t'] + 2) := by
  have h := c3_operator_fusion.1 "< \t=x".toList [' ', '\t'] ['x'] 0 '<'
    TokenKind.LessEqual TokenKind.Less (by decide) (by decide)
  simpa using h


/-! C4: unterminated strings consume everything and end the scan. -/

theorem lexNext_quote (whole r : List Char) (byte : Nat) :
    lexNext whole ('"' :: r) byte =
      (some (lexString whole '"' r (byte + 1)).1, (lexString whole '"' r (byte + 1)).2) := by
  have hst := @skipTrivia_stop '"' r (by decide) (fun hc => absurd hc.1 (by decide)) byte
  rw [lexNext_eq_of_skip_cons whole hst]
  have hdisp : dispatch whole '"' r byte = lexString whole '"' r (byte + 1) := by
    simp [dispatch, show Char.utf8Size '"' = 1 from by decide]
  rw [hdisp]

/-- C4: a quote with no closing quote before end of input yields an
`UnterminatedString` error spanning from the opening quote to the end of
the buffer, consumes the entire remaining suffix, and every later call
returns the exhausted sentinel, so the item stream ends with that error. -/
theorem c4_unterminated_string :
    (∀ (whole r : List Char) (byte : Nat), '"' ∉ r →
      lexNext whole ('"' :: r) byte =
        (some (.error (.stringTermination whole (byte, utf8Len whole))), [],
          byte + 1 + utf8Len r)) ∧
    (∀ (whole : List Char) (fuel byte : Nat), lexItemsF whole fuel [] byte = []) ∧
    (∀ (whole r : List Char) (byte fuel : Nat), '"' ∉ r →
      lexItemsF whole (fuel + 1) ('"' :: r) byte =
        [.error (.stringTermination whole (byte, utf8Len whole))]) ∧
    lexAll "+\"ab".toList =
      [.ok ⟨"+".toList, .Plus⟩,
       .error (.stringTermination "+\"ab".toList (1, 4))] ∧
    lexAll "\"unterminated".toList =
      [.error (.stringTermination "\"unterminated".toList (0, 13))] := by
  have hpart1 : ∀ (whole r : List Char) (byte : Nat), '"' ∉ r →
      lexNext whole ('"' :: r) byte =
        (some (.error (.stringTermination whole (byte, utf8Len whole))), [],
          byte + 1 + utf8Len r) := by
    intro whole r byte hm
    rw [lexNext_quote, lexString, if_neg hm]
    have hb : byte + 1 - Char.utf8Size '"' = byte := by
      rw [show Char.utf8Size '"' = 1 from by decide]
      omega
    rw [hb]
  have hpart2 : ∀ (whole : List Char) (fuel byte : Nat),
      lexItemsF whole fuel [] byte = [] := by
    intro whole fuel byte
    cases fuel with
    | zero => rfl
    | succ fuel => exact lexItemsF_succ_none fuel (lexNext_nil whole byte)
  refine ⟨hpart1, hpart2, ?_, by decide, by decide⟩
  intro whole r byte fuel hm
  rw [lexItemsF_succ_some fuel (hpart1 whole r byte hm), hpart2]

/-- Witness for C4: the behavior on the concrete unterminated input
`"ab` scanned from offset 0 with fuel 3. -/
theorem c4_unterminated_string_witness :
    lexNext "\"ab".toList ('"' :: "ab".toList) 0 =
      (some (.error (.stringTermination "\"ab".toList (0, utf8Len "\"ab".toList))), [],
        0 + 1 + utf8Len "ab".toList) ∧
    lexItemsF "\"ab".toList (2 + 1) ('"' :: "ab".toList) 0 =
      [.error (.stringTermination "\"ab".toList (0, utf8Len "\"ab".toList))] :=
  ⟨c4_unterminated_string.1 "\"ab".toList "ab".toList 0 (by decide),
   c4_unterminated_string.2.2.1 "\"ab".toList "ab".toList 0 2 (by decide)⟩


/-! C5: unexpected characters produce a one-character error and scanning
resumes. -/

/-- C5: a character that starts no lexical rule yields an
`UnexpectedCharacter` error whose span is exactly that character, scanning
resumes at the next character, and `@+` yields the error for `@` followed
by a `Plus` token. -/
theorem c5_unexpected_character :
    (∀ (whole r : List Char) (byte : Nat) (c : Char),
      rustIsWhitespace c = false →
      c ∉ ['(', ')', '{', '}', ',', '.', '-', '+', ';', '*', '/', '<', '>', '!', '=', '"'] →
      isDigitChar c = false → isIdentStart c = false →
      lexNext whole (c :: r) byte =
        (some (.error (.singleToken whole c (byte, byte + c.utf8Size))), r,
          byte + c.utf8Size)) ∧
    lexAll "@+".toList =
      [.error (.singleToken "@+".toList '@' (0, 1)), .ok ⟨"+".toList, .Plus⟩] := by
  refine ⟨?_, by decide⟩
  intro whole r byte c hws hp hdig hid
  have hslash : ¬(c = '/' ∧ r.head? = some '/') := by
    intro hc
    exact hp (by rw [hc.1]; decide)
  have hst := @skipTrivia_stop c r hws hslash byte
  rw [lexNext_eq_of_skip_cons whole hst, dispatch_unexpected hp hdig hid]

/-- Witness for C5: the unexpected character `@` before a plus sign. -/
theorem c5_unexpected_character_witness :
    lexNext "@+".toList ('@' :: "+".toList) 0 =
      (some (.error (.singleToken "@+".toList '@' (0, 0 + Char.utf8Size '@'))),
        "+".toList, 0 + Char.utf8Size '@') :=
  c5_unexpected_character.1 "@+".toList "+".toList 0 '@' (by decide) (by decide)
    (by decide) (by decide)


/-! C6: the line() computation panics on multi-byte offending characters. -/

/-- C6 (code bug): the input `¬` yields an `UnexpectedCharacter` error at
byte span `(0, 2)`; its `line()` slices `src[..=0]`, i.e. the first byte
only, which is not a character boundary of the 2-byte `¬`, so the Rust code
panics (modelled as `none`) — the computation is not total as the claim
states.  For single-byte offenders the method does return the 1-based
newline count the claim describes, as the `@` and unterminated-string cases
show. -/
theorem c6_line_panics_on_multibyte :
    lexAll "¬".toList = [.error (.singleToken "¬".toList '¬' (0, 2))] ∧
    (LexError.singleToken "¬".toList '¬' (0, 2)).lineNum = none ∧
    lexAll "\n@".toList = [.error (.singleToken "\n@".toList '@' (1, 2))] ∧
    (LexError.singleToken "\n@".toList '@' (1, 2)).lineNum = some 2 ∧
    lexAll "\n\"ab".toList =
      [.error (.stringTermination "\n\"ab".toList (1, 4))] ∧
    (LexError.stringTermination "\n\"ab".toList (1, 4)).lineNum = some 2 := by
  decide


/-! C7: the malformed-numeric-literal branch is dead code. -/

theorem lexOperator_ok (yes no : TokenKind) (c : Char) (cs : List Char) (b : Nat) :
    ∃ tk, (lexOperator yes no c cs b).1 = Except.ok tk := by
  simp only [lexOperator]
  by_cases h : ((cs.dropWhile rustIsWhitespace).head? = some '=')
  · rw [if_pos h]
    exact ⟨_, rfl⟩
  · rw [if_neg h]
    exact ⟨_, rfl⟩

theorem dispatch_not_malformed (whole : List Char) (c : Char) (cs : List Char)
    (byte : Nat) (src : List Char) (sp : Nat × Nat) :
    (dispatch whole c cs byte).1 ≠ .error (.malformedNumeric src sp) := by
  by_cases hdig : isDigitChar c = true
  · rw [dispatch_digit hdig]
    obtain ⟨literal, rem, q, -, -, -, -, h4⟩ := lexNumber_eq hdig whole cs (byte + c.utf8Size)
    rw [h4]
    simp
  by_cases h1 : c = '('
  · subst h1; simp [dispatch]
  by_cases h2 : c = ')'
  · subst h2; simp [dispatch]
  by_cases h3 : c = '{'
  · subst h3; simp [dispatch]
  by_cases h4 : c = '}'
  · subst h4; simp [dispatch]
  by_cases h5 : c = ','
  · subst h5; simp [dispatch]
  by_cases h6 : c = '.'
  · subst h6; simp [dispatch]
  by_cases h7 : c = '-'
  · subst h7; simp [dispatch]
  by_cases h8 : c = '+'
  · subst h8; simp [dispatch]
  by_cases h9 : c = ';'
  · subst h9; simp [dispatch]
  by_cases h10 : c = '*'
  · subst h10; simp [dispatch]
  by_cases h11 : c = '/'
  · subst h11; simp [dispatch]
  by_cases h12 : c = '<'
  · subst h12
    obtain ⟨tk, htk⟩ := lexOperator_ok .LessEqual .Less '<' cs (byte + Char.utf8Size '<')
    simp [dispatch, htk]
  by_cases h13 : c = '>'
  · subst h13
    obtain ⟨tk, htk⟩ := lexOperator_ok .GreaterEqual .Greater '>' cs (byte + Char.utf8Size '>')
    simp [dispatch, htk]
  by_cases h14 : c = '!'
  · subst h14
    obtain ⟨tk, htk⟩ := lexOperator_ok .BangEqual .Bang '!' cs (byte + Char.utf8Size '!')
    simp [dispatch, htk]
  by_cases h15 : c = '='
  · subst h15
    obtain ⟨tk, htk⟩ := lexOperator_ok .EqualEqual .Equal '=' cs (byte + Char.utf8Size '=')
    simp [dispatch, htk]
  by_cases h16 : c = '"'
  · subst h16
    by_cases hm : '"' ∈ cs
    · simp [dispatch, lexString, hm]
    · simp [dispatch, lexString, hm]
  by_cases hid : isIdentStart c = true
  · rw [dispatch_identStart hid]
    simp [lexIdent]
  · have hp : c ∉ ['(', ')', '{', '}', ',', '.', '-', '+', ';', '*', '/', '<', '>', '!', '=', '"'] := by
      simp [List.mem_cons, h1, h2, h3, h4, h5, h6, h7, h8, h9, h10, h11, h12, h13, h14,
        h15, h16]
    rw [dispatch_unexpected hp (Bool.eq_false_iff.2 hdig) (Bool.eq_false_iff.2 hid)]
    simp

theorem lexNext_not_malformed {whole rest : List Char} {byte : Nat}
    {it : Except LexError Token} {r' : List Char} {b' : Nat}
    (h : lexNext whole rest byte = (some it, r', b'))
    (src : List Char) (sp : Nat × Nat) :
    it ≠ .error (.malformedNumeric src sp) := by
  rcases hst : skipTrivia false rest byte with ⟨r1, b1⟩
  cases r1 with
  | nil =>
    rw [lexNext_eq_of_skip_nil whole hst] at h
    simp only [Prod.mk.injEq] at h
    exact absurd h.1 (by simp)
  | cons c cs =>
    rw [lexNext_eq_of_skip_cons whole hst] at h
    simp only [Prod.mk.injEq, Option.some.injEq] at h
    rw [← h.1]
    exact dispatch_not_malformed whole c cs b1 src sp

/-- C7: every literal retained by the digit/dot filtering parses, so the
lexer never yields the malformed-numeric-literal error. -/
theorem c7_no_malformed_numeric :
    (∀ (c : Char) (cs : List Char), isDigitChar c = true →
      (parseNumber (numberLiteral ((c :: cs).takeWhile isNumChar))).isSome = true) ∧
    (∀ (input src : List Char) (sp : Nat × Nat),
      Except.error (LexError.malformedNumeric src sp) ∉ lexAll input) := by
  constructor
  · intro c cs h
    obtain ⟨literal, rem, q, -, -, hlit, hq, -⟩ := lexNumber_eq h [] cs 0
    rw [hlit, hq]
    rfl
  · have hrun : ∀ (fuel : Nat) (whole rest : List Char) (byte : Nat)
        (src : List Char) (sp : Nat × Nat),
        Except.error (LexError.malformedNumeric src sp) ∉ lexItemsF whole fuel rest byte := by
      intro fuel
      induction fuel with
      | zero => intro whole rest byte src sp; simp [lexItemsF]
      | succ fuel ih =>
        intro whole rest byte src sp
        rcases hnext : lexNext whole rest byte with ⟨ro, r', b'⟩
        cases ro with
        | none => rw [lexItemsF_succ_none fuel hnext]; simp
        | some it =>
          rw [lexItemsF_succ_some fuel hnext]
          intro hmem
          rcases List.mem_cons.1 hmem with heq | hmem'
          · exact lexNext_not_malformed hnext src sp heq.symm
          · exact ih whole r' b' src sp hmem'
    intro input src sp
    exact hrun (input.length + 1) input input 0 src sp


/-- Witness for C7: the filtered literal of the run `1..2` parses, and the
malformed-numeric error is absent from that input's item stream. -/
theorem c7_no_malformed_numeric_witness :
    (parseNumber (numberLiteral (('1' :: "..2".toList).takeWhile isNumChar))).isSome = true ∧
    Except.error (LexError.malformedNumeric [] (0, 0)) ∉ lexAll "1..2".toList :=
  ⟨c7_no_malformed_numeric.1 '1' "..2".toList (by decide),
   c7_no_malformed_numeric.2 "1..2".toList [] (0, 0)⟩

/-! C8: maximal identifier runs and the keyword table. -/

/-- C8: a maximal run starting with a letter or underscore and continuing
over letters, digits and underscores is emitted as one token for the whole
run, a keyword kind exactly when the run is in the reserved-word table and
`Ident` otherwise; `forest` is a single token rendering `IDENTFIER forest`,
not the keyword `for` followed by `est`. -/
theorem c8_ident_keyword :
    (∀ (whole l' r : List Char) (byte : Nat) (c : Char),
      isIdentStart c = true →
      (∀ d ∈ l', isIdentChar d = true) →
      (∀ d, r.head? = some d → isIdentChar d = false) →
      lexNext whole (c :: (l' ++ r)) byte =
        (some (.ok ⟨c :: l', keywordKind (c :: l')⟩), r, byte + utf8Len (c :: l'))) ∧
    lexAll "forest".toList = [.ok ⟨"forest".toList, .Ident⟩] ∧
    Token.display ⟨"forest".toList, .Ident⟩ = "IDENTFIER forest" ∧
    lexAll "for est".toList =
      [.ok ⟨"for".toList, .For⟩, .ok ⟨"est".toList, .Ident⟩] := by
  refine ⟨?_, by decide, by decide, by decide⟩
  intro whole l' r byte c hc hl hr
  have hslash : c ≠ '/' := ne_of_pred hc (by decide)
  have hst := @skipTrivia_stop c (l' ++ r) (identStart_not_ws hc) (fun h => hslash h.1) byte
  rw [lexNext_eq_of_skip_cons whole hst, dispatch_identStart hc]
  have htr : r.takeWhile isIdentChar = [] := by
    cases r with
    | nil => rfl
    | cons d r' => rw [List.takeWhile_cons, if_neg (by simp [hr d rfl])]
  have hdr : r.dropWhile isIdentChar = r := by
    cases r with
    | nil => rfl
    | cons d r' => rw [List.dropWhile_cons, if_neg (by simp [hr d rfl])]
  have htake : (c :: (l' ++ r)).takeWhile isIdentChar = c :: l' := by
    rw [List.takeWhile_cons, if_pos (isIdentStart_isIdentChar hc),
      takeWhile_append_all hl, htr, List.append_nil]
  have hdrop : (c :: (l' ++ r)).dropWhile isIdentChar = r := by
    rw [List.dropWhile_cons, if_pos (isIdentStart_isIdentChar hc),
      dropWhile_append_all hl, hdr]
  simp only [lexIdent, htake, hdrop]
  have hsz : c.utf8Size ≤ utf8Len (c :: l') := by
    rw [utf8Len_cons]; omega
  have hb : byte + c.utf8Size + (utf8Len (c :: l') - c.utf8Size) =
      byte + utf8Len (c :: l') := by omega
  rw [hb]

/-- Witness for C8: the keyword-boundary rule applied to `forest!`. -/
theorem c8_ident_keyword_witness :
    lexNext "forest!".toList ('f' :: ("orest".toList ++ "!".toList)) 0 =
      (some (.ok ⟨'f' :: "orest".toList, keywordKind ('f' :: "orest".toList)⟩),
        "!".toList, 0 + utf8Len ('f' :: "orest".toList)) :=
  c8_ident_keyword.1 "forest!".toList "orest".toList "!".toList 0 'f'
    (by decide) (by decide) (by decide)


/-! C9: terminated string literals and their rendering. -/

theorem dropWhile_none {p : Char → Bool} {l : List Char} (h : ∀ x ∈ l, p x = false) :
    l.dropWhile p = l := by
  cases l with
  | nil => rfl
  | cons x t => rw [List.dropWhile_cons, if_neg (by simp [h x (by simp)])]

theorem unescape_quoted {content : List Char} (h : '"' ∉ content) :
    unescape (('"' :: content) ++ ['"']) = content := by
  have hne : ∀ d ∈ content, (d == '"') = false := by
    intro d hd
    simp only [beq_eq_false_iff_ne, ne_eq]
    intro e; subst e; exact h hd
  cases content with
  | nil => rfl
  | cons d ct =>
    have hd : (d == '"') = false := hne d (by simp)
    have hstep1 : (('"' :: (d :: ct)) ++ ['"']).dropWhile (fun x => x == '"') =
        d :: (ct ++ ['"']) := by
      rw [show ('"' :: (d :: ct)) ++ ['"'] = '"' :: (d :: (ct ++ ['"'])) from rfl,
        List.dropWhile_cons, if_pos (by decide), List.dropWhile_cons, if_neg (by simp [hd])]
    have hrev : (d :: (ct ++ ['"'])).reverse = '"' :: (d :: ct).reverse := by
      rw [show d :: (ct ++ ['"']) = (d :: ct) ++ ['"'] from rfl, List.reverse_append]
      rfl
    have hstep2 : ((d :: ct).reverse).dropWhile (fun x => x == '"') = (d :: ct).reverse :=
      dropWhile_none (fun x hx => hne x (List.mem_reverse.1 hx))
    rw [unescape, hstep1, hrev, List.dropWhile_cons, if_pos (by decide), hstep2,
      List.reverse_reverse]

/-- C9: a terminated string literal is one `String` token whose origin runs
from the opening through the closing quote; it renders as
`STRING <origin> <value>` where the value is the origin with the
surrounding quotes stripped and nothing else changed; `"foo"` renders as
`STRING "foo" foo`. -/
theorem c9_string_token :
    (∀ (whole content r : List Char) (byte : Nat), '"' ∉ content →
      lexNext whole ('"' :: (content ++ '"' :: r)) byte =
        (some (.ok ⟨('"' :: content) ++ ['"'], .String⟩), r,
          byte + utf8Len content + 2)) ∧
    (∀ content : List Char, '"' ∉ content →
      unescape (('"' :: content) ++ ['"']) = content) ∧
    (∀ content : List Char, '"' ∉ content →
      Token.display ⟨('"' :: content) ++ ['"'], .String⟩ =
        "STRING " ++ String.mk (('"' :: content) ++ ['"']) ++ " " ++ String.mk content) ∧
    lexAll "\"foo\"".toList = [.ok ⟨"\"foo\"".toList, .String⟩] ∧
    Token.display ⟨"\"foo\"".toList, .String⟩ = "STRING \"foo\" foo" := by
  refine ⟨?_, fun content h => unescape_quoted h, ?_, by decide, by decide⟩
  · intro whole content r byte h
    have hm : '"' ∈ content ++ '"' :: r := by simp
    have hcontent : ∀ d ∈ content, (d != '"') = true := by
      intro d hd
      simp only [bne_iff_ne, ne_eq]
      intro e; subst e; exact h hd
    have htake : (content ++ '"' :: r).takeWhile (fun d => d != '"') = content :=
      takeWhile_append_stop hcontent (by decide) _
    have hdrop : (content ++ '"' :: r).dropWhile (fun d => d != '"') = '"' :: r :=
      dropWhile_append_stop hcontent (by decide) _
    rw [lexNext_quote, lexString, if_pos hm, htake, hdrop]
    simp only [List.drop_one, List.tail_cons]
    have hb : byte + 1 + utf8Len content + 1 = byte + utf8Len content + 2 := by omega
    rw [hb]
  · intro content h
    simp only [Token.display]
    rw [unescape_quoted h]

/-- Witness for C9: the string literal `"ab"` followed by `+`. -/
theorem c9_string_token_witness :
    lexNext "\"ab\"+".toList ('"' :: ("ab".toList ++ '"' :: "+".toList)) 0 =
      (some (.ok ⟨('"' :: "ab".toList) ++ ['"'], .String⟩), "+".toList,
        0 + utf8Len "ab".toList + 2) ∧
    Token.display ⟨('"' :: "ab".toList) ++ ['"'], .String⟩ =
      "STRING " ++ String.mk (('"' :: "ab".toList) ++ ['"']) ++ " " ++ String.mk "ab".toList :=
  ⟨c9_string_token.1 "\"ab\"+".toList "ab".toList "+".toList 0 (by decide),
   c9_string_token.2.2.1 "ab".toList (by decide)⟩


/-! C10: the cursor invariant. -/

/-- C10: after construction and after every call to `next`, `rest` is the
suffix of `whole` at byte offset `byte` (so `byte` equals the byte length
of `whole` minus that of `rest`), `rest` never grows across calls, and once
`next` returns the exhausted sentinel the remainder is empty and every
subsequent call returns the sentinel again. -/
theorem c10_cursor_invariant :
    (∀ input : List Char, (Lexer.new input).WF) ∧
    (∀ lx : Lexer, lx.WF →
      lx.byte = utf8Len lx.whole - utf8Len lx.rest ∧
      dropBytes lx.byte lx.whole = lx.rest) ∧
    (∀ lx : Lexer, lx.WF → (lx.next.2).WF) ∧
    (∀ lx : Lexer, lx.WF → (lx.next.2).rest.length ≤ lx.rest.length) ∧
    (∀ lx : Lexer, lx.next.1 = none →
      lx.next.2.rest = [] ∧ (lx.next.2).next.1 = none) := by
  have hnextform : ∀ (lx : Lexer) (ro : Option (Except LexError Token))
      (r' : List Char) (b' : Nat), lexNext lx.whole lx.rest lx.byte = (ro, r', b') →
      lx.next = (ro, ⟨lx.whole, r', b'⟩) := by
    intro lx ro r' b' h
    rw [Lexer.next, h]
  refine ⟨?_, ?_, ?_, ?_, ?_⟩
  · intro input
    exact ⟨[], rfl, rfl⟩
  · rintro lx ⟨pre, hw, hb⟩
    constructor
    · rw [hb, hw, utf8Len_append]
      omega
    · rw [hb, hw, dropBytes_exact]
  · rintro lx ⟨pre, hw, hb⟩
    rcases hnext : lexNext lx.whole lx.rest lx.byte with ⟨ro, r', b'⟩
    rw [hnextform lx ro r' b' hnext]
    cases ro with
    | none =>
      obtain ⟨hr, -, hb'⟩ := lexNext_none_spec hnext
      subst hr
      refine ⟨lx.whole, by simp, ?_⟩
      show b' = utf8Len lx.whole
      rw [hb', hb, hw, utf8Len_append]
    | some it =>
      obtain ⟨g1, cons, g2, hd1, -, -, -, hd5, -⟩ := lexNext_some_spec hw hb hnext
      refine ⟨pre ++ (g1 ++ (cons ++ g2)), ?_, ?_⟩
      · show lx.whole = pre ++ (g1 ++ (cons ++ g2)) ++ r'
        rw [hw, hd1]
        simp [List.append_assoc]
      · show b' = utf8Len (pre ++ (g1 ++ (cons ++ g2)))
        rw [hd5, hb]
        simp only [utf8Len_append]
        omega
  · rintro lx ⟨pre, hw, hb⟩
    rcases hnext : lexNext lx.whole lx.rest lx.byte with ⟨ro, r', b'⟩
    rw [hnextform lx ro r' b' hnext]
    cases ro with
    | none =>
      obtain ⟨hr, -, -⟩ := lexNext_none_spec hnext
      subst hr
      simp
    | some it =>
      obtain ⟨g1, cons, g2, hd1, -, -, -, -, -⟩ := lexNext_some_spec hw hb hnext
      show r'.length ≤ lx.rest.length
      rw [hd1]
      simp only [List.length_append]
      omega
  · intro lx h
    rcases hnext : lexNext lx.whole lx.rest lx.byte with ⟨ro, r', b'⟩
    rw [hnextform lx ro r' b' hnext] at h ⊢
    simp only at h
    subst h
    obtain ⟨hr, -, -⟩ := lexNext_none_spec hnext
    subst hr
    exact ⟨rfl, by rw [Lexer.next, lexNext_nil]⟩

/-- Witness for C10: the invariant holds for the lexer over `(a` after
construction and after one call. -/
theorem c10_cursor_invariant_witness :
    (Lexer.new "(a".toList).WF ∧
    ((Lexer.new "(a".toList).next.2).WF ∧
    ((Lexer.new "(a".toList).next.2).rest.length ≤ (Lexer.new "(a".toList).rest.length :=
  ⟨c10_cursor_invariant.1 _,
   c10_cursor_invariant.2.2.1 _ (c10_cursor_invariant.1 _),
   c10_cursor_invariant.2.2.2.1 _ (c10_cursor_invariant.1 _)⟩

end Rusty
